import Mathlib

/-!
Verification of the iroh blob-store trait layer
(`src/iroh-bytes/src/store/traits.rs`) and the DERP map helpers
(`src/src/hp/derp/map.rs`).

The Rust code is shallowly embedded: hashes are opaque identifiers with a
total order (modelled as `Nat`), `anyhow::Error` / `io::Error` values are
opaque tokens (modelled as `String`), fallible operations return `Except`,
and the event streams produced by the GC generators are modelled as the
lists of events they yield together with the trace of store mutations
(`add_live` / `delete` calls) they perform.
-/

namespace Iroh

/-- Hash: an opaque 32-byte identifier; equality and total order by bytewise
comparison. Modelled as `Nat` (an order-embedding of the value space). -/
abbrev Hash := Nat

/-- Opaque error value (`io::Error` / `anyhow::Error`). -/
abbrev Err := String

/-- A tag name (bounded UTF-8 string). -/
abbrev Tag := String

/-- Modelled from the spec: `BlobFormat` — variant `Raw` or `HashSeq`,
declared in this order (the enum itself lives in `iroh-bytes/src/lib.rs`,
which is not among the staged files). Its derived total order follows
declaration order, so `raw < hashSeq`. -/
inductive BlobFormat
  | raw
  | hashSeq
deriving DecidableEq, Repr

/-- `BlobFormat::is_raw`. -/
def BlobFormat.is_raw : BlobFormat → Bool
  | .raw => true
  | .hashSeq => false

/-- Rank of a format in its derived order (declaration order). -/
def BlobFormat.rank : BlobFormat → Nat
  | .raw => 0
  | .hashSeq => 1

/-- `HashAndFormat` — pair of a hash and a format. -/
structure HashAndFormat where
  hash : Hash
  format : BlobFormat
deriving DecidableEq, Repr

/-- The derived lexicographic order on `HashAndFormat` (hash first, then
format), which is the iteration order of a `BTreeSet<HashAndFormat>`. -/
def hafLt (a b : HashAndFormat) : Bool :=
  a.hash < b.hash || (a.hash = b.hash && a.format.rank < b.format.rank)

/-- What `parse_hash_seq` and the subsequent item stream deliver for one
data reader: either the initial parse fails, or it succeeds with an
up-front `count` and the stream then yields `children` in order, after
which it ends normally (`truncated = false`) or returns an error
(`truncated = true`). -/
inductive ParseOutcome
  | parseFail
  | parsed (count : Nat) (children : List Hash) (truncated : Bool)
deriving DecidableEq, Repr

/-- An entry of the store as `gc_mark_task` observes it: its
complete/partial classification and what opening its data reader gives
(`none` models `entry.data_reader()` returning an error). -/
structure Entry where
  isComplete : Bool
  reader : Option ParseOutcome
deriving DecidableEq, Repr

/-- The store operations used by `gc_mark_task` and `gc_sweep_task`.
`tags`, `blobs` and `partial_blobs` model `io::Result<DbIter<_>>`: the
iterator creation may fail and each yielded item may fail. `delete`
models the result the store returns for a given batch. -/
structure Store where
  tags : Except Err (List (Except Err (Tag × HashAndFormat)))
  temp_tags : List HashAndFormat
  get : Hash → Except Err (Option Entry)
  blobs : Except Err (List (Except Err Hash))
  partial_blobs : Except Err (List (Except Err Hash))
  delete : List Hash → Except Err Unit

/-- The events yielded by `gc_mark_task`, with the payloads of the
formatted messages kept structurally. `traversingTags`, `addingRoot`,
`traversingTempRoots`, `addingTempPin`, `traversingExtraRoots`,
`addingExtraRoot`, `parsedCollection` and `markDone` are the
`CustomDebug` messages, in source order; `notFound`, `partialEntry`,
`dataReaderFailed` and `parseFailed` are the `CustomWarning` messages
("gc: {} not found", "gc: {} is partial", "gc: {} creating data reader
failed", "gc: {} parse failed" — the last is emitted both when
`parse_hash_seq` fails and when the item stream errors); `error` is the
terminal `GcMarkEvent::Error`. -/
inductive GcMarkEvent
  | traversingTags
  | addingRoot (name : Tag) (haf : HashAndFormat)
  | traversingTempRoots
  | addingTempPin (haf : HashAndFormat)
  | traversingExtraRoots
  | addingExtraRoot (haf : HashAndFormat)
  | notFound (h : Hash)
  | partialEntry (h : Hash)
  | dataReaderFailed (h : Hash)
  | parseFailed (h : Hash)
  | parsedCollection (h : Hash) (count : Nat)
  | markDone (liveCount : Nat)
  | error (e : Err)
deriving DecidableEq, Repr

/-- The three constructors of the Rust `GcMarkEvent` enum. -/
inductive GcEventKind
  | customDebug
  | customWarning
  | fatal
deriving DecidableEq, Repr

/-- Which Rust `GcMarkEvent` constructor each structured event stands for. -/
def GcMarkEvent.kind : GcMarkEvent → GcEventKind
  | .notFound _ => .customWarning
  | .partialEntry _ => .customWarning
  | .dataReaderFailed _ => .customWarning
  | .parseFailed _ => .customWarning
  | .error _ => .fatal
  | _ => .customDebug

/-- Insertion into the sorted, duplicate-free list modelling
`BTreeSet<HashAndFormat>` (`roots.insert(haf)`). -/
def insertRoot (x : HashAndFormat) : List HashAndFormat → List HashAndFormat
  | [] => [x]
  | y :: ys =>
    if x = y then y :: ys
    else if hafLt x y then x :: y :: ys
    else y :: insertRoot x ys

/-- Insertion into the duplicate-free list modelling `BTreeSet<Hash>`
(`live.insert(hash)`; the hash is added exactly when it is not yet a
member, which is also the `bool` the Rust insert returns). -/
def insertLive (h : Hash) (live : List Hash) : List Hash :=
  if h ∈ live then live else live ++ [h]

/-- Folding `insertLive` over a list of hashes (the loop inserting each
decoded child into `live`). -/
def insertAllLive (hs : List Hash) (live : List Hash) : List Hash :=
  hs.foldl (fun l h => insertLive h l) live

/-- The "traversing tags" loop of `gc_mark_task`: for each item of the
tags iterator, fail on an `Err` item, otherwise emit the "adding root"
debug event and insert the target into the root set. -/
def addTagRoots : List (Except Err (Tag × HashAndFormat)) → List HashAndFormat →
    List GcMarkEvent × Except Err (List HashAndFormat)
  | [], roots => ([], .ok roots)
  | .error e :: _, _ => ([], .error e)
  | .ok (name, haf) :: rest, roots =>
    let (evs, r) := addTagRoots rest (insertRoot haf roots)
    (.addingRoot name haf :: evs, r)

/-- The "traversing temp roots" loop of `gc_mark_task` (infallible). -/
def addTempRoots : List HashAndFormat → List HashAndFormat →
    List GcMarkEvent × List HashAndFormat
  | [], roots => ([], roots)
  | haf :: rest, roots =>
    let (evs, out) := addTempRoots rest (insertRoot haf roots)
    (.addingTempPin haf :: evs, out)

/-- The "traversing extra roots" loop of `gc_mark_task`. -/
def addExtraRoots : List (Except Err HashAndFormat) → List HashAndFormat →
    List GcMarkEvent × Except Err (List HashAndFormat)
  | [], roots => ([], .ok roots)
  | .error e :: _, _ => ([], .error e)
  | .ok haf :: rest, roots =>
    let (evs, r) := addExtraRoots rest (insertRoot haf roots)
    (.addingExtraRoot haf :: evs, r)

/-- Root collection of `gc_mark_task`: tags, then temp tags, then extra
roots, with the interleaved debug events and fail-fast error handling of
the source. -/
def collectRoots (s : Store) (extra : List (Except Err HashAndFormat)) :
    List GcMarkEvent × Except Err (List HashAndFormat) :=
  match s.tags with
  | .error e => ([.traversingTags], .error e)
  | .ok items =>
    let (evs1, r1) := addTagRoots items []
    match r1 with
    | .error e => (.traversingTags :: evs1, .error e)
    | .ok roots1 =>
      let (evs2, roots2) := addTempRoots s.temp_tags roots1
      let (evs3, r3) := addExtraRoots extra roots2
      (.traversingTags :: evs1 ++ .traversingTempRoots :: evs2 ++
        .traversingExtraRoots :: evs3, r3)

/-- The marking loop of `gc_mark_task` over the collected (sorted,
deduplicated) roots. Every root hash is inserted into `live`; a root is
traversed exactly when its hash was newly inserted and its format is not
`Raw`. A missing entry, a partial entry, a failed reader open, and a
failed parse each yield one warning and continue; an error from
`store.get` is fatal. For a parsed collection the decoded children are
inserted one level deep, with a "parse failed" warning (and no further
children) when the item stream errors midway. -/
def markRoots (s : Store) : List HashAndFormat → List Hash →
    List GcMarkEvent × Except Err (List Hash)
  | [], live => ([], .ok live)
  | ⟨h, format⟩ :: rest, live =>
    if h ∈ live || format.is_raw then
      markRoots s rest (insertLive h live)
    else
      match s.get h with
      | .error e => ([], .error e)
      | .ok none =>
        let (evs, r) := markRoots s rest (insertLive h live)
        (.notFound h :: evs, r)
      | .ok (some entry) =>
        if entry.isComplete = false then
          let (evs, r) := markRoots s rest (insertLive h live)
          (.partialEntry h :: evs, r)
        else
          match entry.reader with
          | none =>
            let (evs, r) := markRoots s rest (insertLive h live)
            (.dataReaderFailed h :: evs, r)
          | some .parseFail =>
            let (evs, r) := markRoots s rest (insertLive h live)
            (.parseFailed h :: evs, r)
          | some (.parsed count children truncated) =>
            let live' := insertAllLive children (insertLive h live)
            let (evs, r) := markRoots s rest live'
            (.parsedCollection h count ::
              ((if truncated then [.parseFailed h] else []) ++ evs), r)

/-- The observable behaviour of one `gc_mark_task` run: the yielded
events, the `add_live` calls performed on the store, and the task's
result. -/
structure MarkOut where
  events : List GcMarkEvent
  addLiveCalls : List (List Hash)
  result : Except Err Unit

/-- `gc_mark_task`: collect roots, mark them, emit the "gc mark done"
debug event and publish the live set through one final `add_live` call.
Any `Err` propagated by `?` ends the task with that error, after the
events already yielded. -/
def gc_mark_task (s : Store) (extra : List (Except Err HashAndFormat)) : MarkOut :=
  let (evs1, r1) := collectRoots s extra
  match r1 with
  | .error e => ⟨evs1, [], .error e⟩
  | .ok roots =>
    let (evs2, r2) := markRoots s roots []
    match r2 with
    | .error e => ⟨evs1 ++ evs2, [], .error e⟩
    | .ok live => ⟨evs1 ++ evs2 ++ [.markDone live.length], [live], .ok ()⟩

/-- `Store::gc_mark`: the generator drains the task and, when the task
returns an error, yields it as one terminal `Error` event. -/
def gcMarkStream (s : Store) (extra : List (Except Err HashAndFormat)) :
    List GcMarkEvent :=
  let out := gc_mark_task s extra
  match out.result with
  | .ok _ => out.events
  | .error e => out.events ++ [.error e]

/-! ### Event-free description of the mark phase

`processRoot`, `markLive` and `rootsOf` restate what `gc_mark_task`
computes, with the event bookkeeping and the error plumbing stripped;
the agreement lemmas below tie them to `gc_mark_task`. -/

/-- The children one mark step decodes for a traversed root: the decoded
child hashes when the entry exists, is complete, its reader opens and
`parse_hash_seq` succeeds (including the prefix yielded before a
mid-stream error); nothing in every other case. -/
def childrenOf (s : Store) (h : Hash) : List Hash :=
  match s.get h with
  | .ok (some entry) =>
    if entry.isComplete then
      match entry.reader with
      | some (.parsed _ children _) => children
      | _ => []
    else []
  | _ => []

/-- One iteration of the marking loop, as a pure function on the live
set: the root's hash is always inserted; its decoded children are
inserted exactly when the hash was newly inserted and the format is not
`Raw`. -/
def processRoot (s : Store) (live : List Hash) (r : HashAndFormat) : List Hash :=
  if r.hash ∈ live || r.format.is_raw then insertLive r.hash live
  else insertAllLive (childrenOf s r.hash) (insertLive r.hash live)

/-- The live set the mark phase computes for a given root list. -/
def markLive (s : Store) (roots : List HashAndFormat) : List Hash :=
  roots.foldl (processRoot s) []

/-- The targets among a tag iterator's items that decode without error. -/
def okTagTargets (items : List (Except Err (Tag × HashAndFormat))) :
    List HashAndFormat :=
  items.filterMap fun i =>
    match i with
    | .ok (_, haf) => some haf
    | .error _ => none

/-- The targets of the persistent tags, in iteration order (items that
fail to decode dropped; with an error-free tags iterator this is every
tag's target). -/
def tagTargets (s : Store) : List HashAndFormat :=
  match s.tags with
  | .ok items => okTagTargets items
  | .error _ => []

/-- The extra roots that decode without error. -/
def extraVals (extra : List (Except Err HashAndFormat)) : List HashAndFormat :=
  extra.filterMap fun i =>
    match i with
    | .ok haf => some haf
    | .error _ => none

/-- The deduplicated, sorted root set of a mark run: all persistent tag
targets, all temp-tag targets and all extra roots, inserted into the
`BTreeSet` model in the source's order. -/
def rootsOf (s : Store) (extra : List (Except Err HashAndFormat)) :
    List HashAndFormat :=
  ((tagTargets s ++ s.temp_tags) ++ extraVals extra).foldl
    (fun rs haf => insertRoot haf rs) []

/-! ### The sweep phase -/

/-- The events yielded by `gc_sweep_task`: the one summary
`CustomDebug("deleted {count} blobs")` message, kept structurally, and
the terminal `GcSweepEvent::Error`. -/
inductive GcSweepEvent
  | deletedBlobs (count : Nat)
  | error (e : Err)
deriving DecidableEq, Repr

/-- The observable behaviour of one `gc_sweep_task` run: the yielded
events, the batches passed to `delete`, and the task's result. -/
structure SweepOut where
  events : List GcSweepEvent
  deleteCalls : List (List Hash)
  result : Except Err Unit

/-- The sweep loop over the chained blob iterators, carrying the running
`count` and the current `batch`: an `Err` item is fatal; a hash that is
not live is pushed and counted; whenever the batch reaches 100 entries
it is passed to `delete` (an error from which is fatal) and cleared.
Returns the delete calls made and, on success, the final count and the
leftover batch. -/
def sweepLoop (s : Store) (is_live : Hash → Bool) :
    List (Except Err Hash) → Nat → List Hash →
    List (List Hash) × Except Err (Nat × List Hash)
  | [], count, batch => ([], .ok (count, batch))
  | .error e :: _, _, _ => ([], .error e)
  | .ok h :: rest, count, batch =>
    let (count, batch) :=
      if is_live h then (count, batch) else (count + 1, batch ++ [h])
    if batch.length ≥ 100 then
      match s.delete batch with
      | .error e => ([batch], .error e)
      | .ok () =>
        let (calls, r) := sweepLoop s is_live rest count []
        (batch :: calls, r)
    else
      sweepLoop s is_live rest count batch

/-- `gc_sweep_task`: iterate `blobs()` chained with `partial_blobs()`,
delete the non-live hashes in batches of at most 100, flush the final
non-empty batch, and emit the one summary debug event. `is_live` is the
store's `is_live` predicate as the sweep queries it. -/
def gc_sweep_task (s : Store) (is_live : Hash → Bool) : SweepOut :=
  match s.blobs with
  | .error e => ⟨[], [], .error e⟩
  | .ok bs =>
    match s.partial_blobs with
    | .error e => ⟨[], [], .error e⟩
    | .ok ps =>
      let (calls, r) := sweepLoop s is_live (bs ++ ps) 0 []
      match r with
      | .error e => ⟨[], calls, .error e⟩
      | .ok (count, batch) =>
        if batch.isEmpty then ⟨[.deletedBlobs count], calls, .ok ()⟩
        else
          match s.delete batch with
          | .error e => ⟨[], calls ++ [batch], .error e⟩
          | .ok () => ⟨[.deletedBlobs count], calls ++ [batch], .ok ()⟩

/-- All hashes a sweep run passed to `delete`. -/
def deleted (out : SweepOut) : List Hash :=
  out.deleteCalls.flatten

/-- Modelled from the spec: the live-set control surface (`clear_live`,
`add_live`, `is_live`) is implemented by the concrete stores, which are
not among the staged files. Per the spec, `clear_live()` empties the
set, `add_live(live)` unions hashes in, and the `add_live` publication
happens-before the sweep's `is_live` queries — so after a mark cycle
that published `live` into a cleared set, `is_live h` holds exactly when
`h ∈ live`. -/
def is_live_after (live : List Hash) : Hash → Bool :=
  fun h => decide (h ∈ live)

/-! ### Reachability and the mark-order side condition -/

/-- The hashes the GC-safety property protects for one pinned root: the
root hash itself and, for a non-`Raw` root, every child hash decoded
from its complete hash-sequence blob. -/
def reachableFrom (s : Store) (r : HashAndFormat) : List Hash :=
  r.hash :: (if r.format.is_raw then [] else childrenOf s r.hash)

/-- The roots pinned by persistent tags and held temp tags. -/
def pinnedRoots (s : Store) : List HashAndFormat :=
  tagTargets s ++ s.temp_tags

/-- Every hash reachable from a persistent tag or a held temp tag. -/
def reachable (s : Store) : List Hash :=
  (pinnedRoots s).flatMap (reachableFrom s)

/-- The side condition under which the mark phase traverses every
non-`Raw` root: processed in order, no non-`Raw` root's hash is already
in the live set when its turn comes (no earlier root shares its hash and
no earlier-traversed root decoded it as a child). -/
def rootsOk (s : Store) : List Hash → List HashAndFormat → Bool
  | _, [] => true
  | live, r :: rs =>
    (r.format.is_raw || decide (r.hash ∉ live)) &&
      rootsOk s (processRoot s live r) rs

/-- The non-fatal failure a traversed root runs into, with the warning
event the mark loop yields for it: a missing entry, a partial entry, a
failed reader open, a failed parse, or a mid-stream item error. `none`
when the root traverses cleanly or `store.get` itself fails (which is
fatal, not a warning). -/
def failureWarning (s : Store) (h : Hash) : Option GcMarkEvent :=
  match s.get h with
  | .error _ => none
  | .ok none => some (.notFound h)
  | .ok (some entry) =>
    if entry.isComplete = false then some (.partialEntry h)
    else
      match entry.reader with
      | none => some (.dataReaderFailed h)
      | some .parseFail => some (.parseFailed h)
      | some (.parsed _ _ truncated) =>
        if truncated then some (.parseFailed h) else none

/-! ### The batch writers -/

/-- `BaoContentItem`: a parent (tree node with its 64-byte hash pair) or
a leaf (chunk data at a byte offset). Node ids, offsets and bytes are
modelled as naturals. -/
inductive BaoContentItem
  | parent (node : Nat) (pair : Hash × Hash)
  | leaf (offset : Nat) (data : List Nat)
deriving DecidableEq, Repr

/-- The two backing writers a `CombinedBatchWriter` delegates to: the
result of `outboard.save(node, pair)` and of
`data.write_bytes_at(offset, data)` for each argument. -/
structure WriterBackend where
  saveParent : Nat → Hash × Hash → Except Err Unit
  writeLeafAt : Nat → List Nat → Except Err Unit

/-- The persisted state of a `CombinedBatchWriter`'s two parts: the
parents saved to the outboard and the leaves written to the data region,
each as an append log in write order. -/
structure CombinedState where
  outboard : List (Nat × (Hash × Hash))
  data : List (Nat × List Nat)
deriving DecidableEq, Repr

/-- Applying one `BaoContentItem` to the combined writer: a parent is
saved to the outboard, a leaf is written to the data region; the
operation either fails (leaving the state as it was) or appends the
item's effect. -/
def applyItem (bk : WriterBackend) (st : CombinedState) :
    BaoContentItem → Except Err CombinedState
  | .parent node pair =>
    match bk.saveParent node pair with
    | .error e => .error e
    | .ok () => .ok { st with outboard := st.outboard ++ [(node, pair)] }
  | .leaf offset data =>
    match bk.writeLeafAt offset data with
    | .error e => .error e
    | .ok () => .ok { st with data := st.data ++ [(offset, data)] }

/-- `CombinedBatchWriter::write_batch`: persist the items one by one in
batch order, stopping at the first failing item (`?` propagates its
error); the declared size is unused (`_size`). Returns the state after
the run together with the result. -/
def write_batch (bk : WriterBackend) (st : CombinedState) (_size : Nat) :
    List BaoContentItem → CombinedState × Except Err Unit
  | [] => (st, .ok ())
  | item :: rest =>
    match applyItem bk st item with
    | .error e => (st, .error e)
    | .ok st' => write_batch bk st' _size rest

/-- The first leaf of a batch, as `(offset, data.len())` — the
`filter_map(..).next()` of `FallibleProgressBatchWriter::write_batch`. -/
def firstLeaf (batch : List BaoContentItem) : Option (Nat × Nat) :=
  (batch.filterMap fun item =>
    match item with
    | .leaf offset data => some (offset, data.length)
    | .parent _ _ => none).head?

/-- The observable behaviour of one
`FallibleProgressBatchWriter::write_batch` call: the `(offset, len)`
arguments of the progress-callback invocations, and the result. -/
structure ProgressOut where
  calls : List (Nat × Nat)
  result : Except Err Unit
deriving Repr

/-- `FallibleProgressBatchWriter::write_batch`: find the first leaf's
`(offset, len)`, forward the batch to the inner writer (whose result for
this batch is `inner`; an error propagates before any callback), then
invoke the progress callback once with the first leaf's offset and
length — if there was a leaf — propagating the callback's error. -/
def progress_write_batch (inner : Except Err Unit)
    (on_write : Nat → Nat → Except Err Unit) (_size : Nat)
    (batch : List BaoContentItem) : ProgressOut :=
  let chunk := firstLeaf batch
  match inner with
  | .error e => ⟨[], .error e⟩
  | .ok () =>
    match chunk with
    | none => ⟨[], .ok ()⟩
    | some (offset, len) => ⟨[(offset, len)], on_write offset len⟩

/-! ### Import sugar -/

/-- A chunk of bytes. -/
abbrev ByteChunk := List Nat

/-- An async byte reader, as the sequence of chunk reads it delivers. -/
abbrev ReaderModel := List (Except Err ByteChunk)

/-- A stream of byte chunks (`Stream<Item = io::Result<Bytes>>`). -/
abbrev StreamModel := List (Except Err ByteChunk)

/-- The external `tokio_util::io::ReaderStream::new(data)` wrapper,
modelled as the stream of exactly the chunks the reader delivers. -/
def readerStream (data : ReaderModel) : StreamModel := data

/-- A temp tag, modelled as the `HashAndFormat` it pins. -/
abbrev TempTag := HashAndFormat

/-- The part of the `Store` trait `import_reader` builds on:
`import_stream`, abstract in the progress-sender type `π`. -/
structure ImportStore (π : Type) where
  import_stream : StreamModel → BlobFormat → π → Except Err (TempTag × Nat)

/-- `Store::import_reader` as the source defines it: wrap the reader in
a `ReaderStream` and call `import_stream`. -/
def import_reader {π : Type} (s : ImportStore π) (data : ReaderModel)
    (format : BlobFormat) (progress : π) : Except Err (TempTag × Nat) :=
  s.import_stream (readerStream data) format progress

/-- The spec's description of `import_reader` ("sugar over
`import_stream`"): `import_stream` applied to the stream obtained by
wrapping the reader, nothing else. -/
def importReaderSpec {π : Type} (s : ImportStore π) (data : ReaderModel)
    (format : BlobFormat) (progress : π) : Except Err (TempTag × Nat) :=
  s.import_stream (readerStream data) format progress

/-! ### The DERP map (`src/src/hp/derp/map.rs`) -/

/-- An IPv4 address (opaque 32-bit value). -/
structure Ipv4Addr where
  val : Nat
deriving DecidableEq, Repr

/-- An IPv6 address (opaque 128-bit value). -/
structure Ipv6Addr where
  val : Nat
deriving DecidableEq, Repr

/-- `std::net::IpAddr`. -/
inductive IpAddr
  | v4 (a : Ipv4Addr)
  | v6 (a : Ipv6Addr)
deriving DecidableEq, Repr

/-- `UseIpv4`: optionally forces an IPv4 address; `Disabled` turns IPv4
off. -/
inductive UseIpv4
  | none
  | disabled
  | some (a : Ipv4Addr)
deriving DecidableEq, Repr

/-- `UseIpv4::is_enabled`: `!matches!(self, &UseIpv4::Disabled)`. -/
def UseIpv4.is_enabled : UseIpv4 → Bool
  | .disabled => false
  | _ => true

/-- `UseIpv6`. -/
inductive UseIpv6
  | none
  | disabled
  | some (a : Ipv6Addr)
deriving DecidableEq, Repr

/-- `UseIpv6::is_enabled`: `!matches!(self, &UseIpv6::Disabled)`. -/
def UseIpv6.is_enabled : UseIpv6 → Bool
  | .disabled => false
  | _ => true

/-- A DERP relay node. -/
structure DerpNode where
  name : String
  region_id : Nat
  host_name : String
  stun_only : Bool
  stun_port : Nat
  stun_test_ip : Option IpAddr
  ipv4 : UseIpv4
  ipv6 : UseIpv6
  derp_port : Nat
deriving DecidableEq, Repr

/-- A geographic region running DERP relay node(s). -/
structure DerpRegion where
  region_id : Nat
  nodes : List DerpNode
  avoid : Bool
  region_code : String
deriving DecidableEq, Repr

/-- `DerpMap`: a `HashMap<usize, DerpRegion>`, modelled as its list of
entries in the map's (arbitrary) iteration order; the `HashMap`
invariant that keys are distinct is carried as a hypothesis where it
matters. -/
structure DerpMap where
  regions : List (Nat × DerpRegion)
deriving DecidableEq, Repr

/-- `DerpMap::region_ids`: collect the keys and sort them ascending. -/
def DerpMap.region_ids (m : DerpMap) : List Nat :=
  List.insertionSort (· ≤ ·) (m.regions.map Prod.fst)

/-! ### Concrete stores and writers used as test inputs -/

/-- A store with one tagged hash-sequence root `1` listing child `2`,
and an untagged blob `9`. -/
def sSafe : Store where
  tags := .ok [.ok ("keep", ⟨1, .hashSeq⟩)]
  temp_tags := []
  get := fun h =>
    if h = 1 then .ok (some ⟨true, some (.parsed 1 [2] false)⟩)
    else if h = 2 then .ok (some ⟨true, some (.parsed 0 [] false)⟩)
    else .ok none
  blobs := .ok [.ok 1, .ok 2, .ok 9]
  partial_blobs := .ok []
  delete := fun _ => .ok ()

/-- A store with two tagged hash-sequence roots: `1` lists child `2`,
and `2` — also a root — lists child `3`. Marking `1` first inserts `2`
into the live set, so the root `2` is skipped and `3` is never marked. -/
def sCex : Store where
  tags := .ok [.ok ("a", ⟨1, .hashSeq⟩), .ok ("b", ⟨2, .hashSeq⟩)]
  temp_tags := []
  get := fun h =>
    if h = 1 then .ok (some ⟨true, some (.parsed 1 [2] false)⟩)
    else if h = 2 then .ok (some ⟨true, some (.parsed 1 [3] false)⟩)
    else if h = 3 then .ok (some ⟨true, some (.parsed 0 [] false)⟩)
    else .ok none
  blobs := .ok [.ok 1, .ok 2, .ok 3]
  partial_blobs := .ok []
  delete := fun _ => .ok ()

/-- A store whose one tagged hash-sequence root is missing from the
entry map. -/
def sW : Store where
  tags := .ok [.ok ("t", ⟨5, .hashSeq⟩)]
  temp_tags := []
  get := fun _ => .ok none
  blobs := .ok []
  partial_blobs := .ok []
  delete := fun _ => .ok ()

/-- A store whose tags iterator fails to open. -/
def sErr : Store where
  tags := .error "boom"
  temp_tags := []
  get := fun _ => .ok none
  blobs := .ok []
  partial_blobs := .ok []
  delete := fun _ => .ok ()

/-- A store holding 101 blobs, none of them live. -/
def s101 : Store where
  tags := .ok []
  temp_tags := []
  get := fun _ => .ok none
  blobs := .ok ((List.range 101).map Except.ok)
  partial_blobs := .ok []
  delete := fun _ => .ok ()

/-- A store where hash `1` is a complete hash sequence listing `2`. -/
def sDup : Store where
  tags := .ok []
  temp_tags := []
  get := fun h =>
    if h = 1 then .ok (some ⟨true, some (.parsed 1 [2] false)⟩)
    else .ok none
  blobs := .ok [.ok 1, .ok 2]
  partial_blobs := .ok []
  delete := fun _ => .ok ()

/-- A writer backend whose outboard accepts parents but whose data
writer fails every leaf write. -/
def bkCex : WriterBackend where
  saveParent := fun _ _ => .ok ()
  writeLeafAt := fun _ _ => .error "disk full"

/-- The empty combined-writer state. -/
def stEmpty : CombinedState := ⟨[], []⟩

/-- A batch holding one parent and then one leaf. -/
def batchCex : List BaoContentItem := [.parent 0 (7, 8), .leaf 0 [1, 2, 3]]

/-- A progress callback that rejects every report. -/
def cbW : Nat → Nat → Except Err Unit := fun _ _ => .error "cb"

/-- A two-region DERP map whose iteration order is not sorted. -/
def dmEx : DerpMap :=
  ⟨[(5, ⟨5, [], false, "na"⟩), (2, ⟨2, [], false, "eu"⟩)]⟩

/-! ## Lemmas about the live-set and root-set operations -/

theorem mem_insertLive {x h : Hash} {live : List Hash} :
    x ∈ insertLive h live ↔ x = h ∨ x ∈ live := by
  unfold insertLive
  split
  · constructor
    · exact fun hx => Or.inr hx
    · rintro (rfl | hx) <;> assumption
  · simp [or_comm]

theorem subset_insertLive {x h : Hash} {live : List Hash} (hx : x ∈ live) :
    x ∈ insertLive h live :=
  mem_insertLive.mpr (Or.inr hx)

theorem self_mem_insertLive (h : Hash) (live : List Hash) :
    h ∈ insertLive h live :=
  mem_insertLive.mpr (Or.inl rfl)

theorem mem_insertAllLive {x : Hash} {hs live : List Hash} :
    x ∈ insertAllLive hs live ↔ x ∈ hs ∨ x ∈ live := by
  induction hs generalizing live with
  | nil => simp [insertAllLive]
  | cons h t ih =>
    show x ∈ insertAllLive t (insertLive h live) ↔ _
    rw [ih, mem_insertLive]
    simp only [List.mem_cons]
    tauto

theorem mem_processRoot {s : Store} {live : List Hash} {r : HashAndFormat}
    {x : Hash} :
    x ∈ processRoot s live r ↔
      x ∈ live ∨ x = r.hash ∨
        (r.hash ∉ live ∧ r.format.is_raw = false ∧ x ∈ childrenOf s r.hash) := by
  unfold processRoot
  rcases hmem : decide (r.hash ∈ live) with _ | _
  · have hnot : r.hash ∉ live := of_decide_eq_false hmem
    rcases hraw : r.format.is_raw with _ | _
    · simp only [hraw, Bool.or_false, hmem, Bool.false_eq_true, if_false,
        mem_insertAllLive, mem_insertLive]
      tauto
    · simp only [hraw, Bool.or_true, if_true, mem_insertLive]
      tauto
  · have hin : r.hash ∈ live := of_decide_eq_true hmem
    simp only [hmem, Bool.true_or, if_true, mem_insertLive]
    constructor
    · tauto
    · rintro (hx | rfl | ⟨hc, -⟩) <;> tauto

theorem subset_processRoot {s : Store} {live : List Hash} {r : HashAndFormat}
    {x : Hash} (hx : x ∈ live) : x ∈ processRoot s live r :=
  mem_processRoot.mpr (Or.inl hx)

theorem hash_mem_processRoot (s : Store) (live : List Hash)
    (r : HashAndFormat) : r.hash ∈ processRoot s live r :=
  mem_processRoot.mpr (Or.inr (Or.inl rfl))

theorem subset_foldl_processRoot {s : Store} {live : List Hash}
    {roots : List HashAndFormat} {x : Hash} (hx : x ∈ live) :
    x ∈ List.foldl (processRoot s) live roots := by
  induction roots generalizing live with
  | nil => exact hx
  | cons r rs ih => exact ih (subset_processRoot hx)

theorem mem_insertRoot {x y : HashAndFormat} {rs : List HashAndFormat} :
    y ∈ insertRoot x rs ↔ y = x ∨ y ∈ rs := by
  induction rs with
  | nil => simp [insertRoot]
  | cons z zs ih =>
    unfold insertRoot
    split
    · rename_i hxz
      subst hxz
      simp only [List.mem_cons]
      tauto
    · split
      · simp only [List.mem_cons]
      · simp only [List.mem_cons, ih]
        tauto

theorem mem_foldl_insertRoot {y : HashAndFormat} {l acc : List HashAndFormat} :
    y ∈ List.foldl (fun rs haf => insertRoot haf rs) acc l ↔
      y ∈ l ∨ y ∈ acc := by
  induction l generalizing acc with
  | nil => simp
  | cons z zs ih =>
    simp only [List.foldl_cons, ih, mem_insertRoot, List.mem_cons]
    tauto

theorem mem_rootsOf {s : Store} {extra : List (Except Err HashAndFormat)}
    {r : HashAndFormat} :
    r ∈ rootsOf s extra ↔
      r ∈ tagTargets s ∨ r ∈ s.temp_tags ∨ r ∈ extraVals extra := by
  unfold rootsOf
  rw [mem_foldl_insertRoot]
  simp only [List.mem_append, List.not_mem_nil, or_false]
  tauto

theorem insertAllLive_nil (live : List Hash) :
    insertAllLive [] live = live := rfl

theorem processRoot_skip {s : Store} {live : List Hash} {hh : Hash}
    {fmt : BlobFormat}
    (hc : (decide (hh ∈ live) || fmt.is_raw) = true) :
    processRoot s live ⟨hh, fmt⟩ = insertLive hh live := by
  simp only [processRoot, hc, if_true]

theorem processRoot_traverse {s : Store} {live : List Hash} {hh : Hash}
    {fmt : BlobFormat}
    (hc : (decide (hh ∈ live) || fmt.is_raw) = false) :
    processRoot s live ⟨hh, fmt⟩ =
      insertAllLive (childrenOf s hh) (insertLive hh live) := by
  simp only [processRoot, hc]
  rfl

/-- The live set of a successful `markRoots` run is the event-free fold. -/
theorem markRoots_ok_live {s : Store} {roots : List HashAndFormat} :
    ∀ {live l : List Hash}, (markRoots s roots live).2 = .ok l →
      l = List.foldl (processRoot s) live roots := by
  induction roots with
  | nil =>
    intro live l h
    simp only [markRoots, Except.ok.injEq] at h
    simp [h.symm]
  | cons r rest ih =>
    obtain ⟨hh, fmt⟩ := r
    intro live l h
    rw [List.foldl_cons]
    rcases hcond : (decide (hh ∈ live) || fmt.is_raw) with _ | _
    · rw [processRoot_traverse hcond]
      unfold markRoots at h
      rw [hcond] at h
      simp only [Bool.false_eq_true, if_false] at h
      rcases hget : s.get hh with e | oe <;> rw [hget] at h
      · simp at h
      · rcases oe with _ | entry
        · rcases hmr : markRoots s rest (insertLive hh live) with ⟨evs', r'⟩
          rw [hmr] at h
          simp only at h
          have : childrenOf s hh = [] := by simp [childrenOf, hget]
          rw [this, insertAllLive_nil]
          exact ih (by rw [hmr]; exact h)
        · simp only at h
          rcases hcomp : entry.isComplete with _ | _
          · rw [hcomp] at h
            simp only [if_true] at h
            rcases hmr : markRoots s rest (insertLive hh live) with ⟨evs', r'⟩
            rw [hmr] at h
            simp only at h
            have : childrenOf s hh = [] := by
              simp [childrenOf, hget, hcomp]
            rw [this, insertAllLive_nil]
            exact ih (by rw [hmr]; exact h)
          · rw [hcomp] at h
            simp only [Bool.true_eq_false, if_false] at h
            rcases hrd : entry.reader with _ | po <;> rw [hrd] at h <;>
              (try simp only at h)
            · rcases hmr : markRoots s rest (insertLive hh live) with ⟨evs', r'⟩
              rw [hmr] at h
              simp only at h
              have : childrenOf s hh = [] := by
                simp [childrenOf, hget, hcomp, hrd]
              rw [this, insertAllLive_nil]
              exact ih (by rw [hmr]; exact h)
            · rcases po with _ | ⟨count, children, trunc⟩
              · rcases hmr : markRoots s rest (insertLive hh live) with ⟨evs', r'⟩
                rw [hmr] at h
                simp only at h
                have : childrenOf s hh = [] := by
                  simp [childrenOf, hget, hcomp, hrd]
                rw [this, insertAllLive_nil]
                exact ih (by rw [hmr]; exact h)
              · simp only at h
                rcases hmr : markRoots s rest
                    (insertAllLive children (insertLive hh live)) with ⟨evs', r'⟩
                rw [hmr] at h
                simp only at h
                have : childrenOf s hh = children := by
                  simp [childrenOf, hget, hcomp, hrd]
                rw [this]
                exact ih (by rw [hmr]; exact h)
    · rw [processRoot_skip hcond]
      unfold markRoots at h
      rw [hcond] at h
      simp only [if_true] at h
      exact ih h

/-- A successful tag-root loop folds every decoded target into the
accumulator, in order. -/
theorem addTagRoots_ok {items : List (Except Err (Tag × HashAndFormat))} :
    ∀ {acc : List HashAndFormat} {evs : List GcMarkEvent}
      {out : List HashAndFormat},
      addTagRoots items acc = (evs, .ok out) →
      out = List.foldl (fun rs haf => insertRoot haf rs) acc
        (okTagTargets items) := by
  induction items with
  | nil =>
    intro acc evs out h
    simp only [addTagRoots, Prod.mk.injEq, Except.ok.injEq] at h
    simp [okTagTargets, h.2.symm]
  | cons i rest ih =>
    intro acc evs out h
    rcases i with e | ⟨name, haf⟩
    · simp [addTagRoots] at h
    · unfold addTagRoots at h
      rcases hrec : addTagRoots rest (insertRoot haf acc) with ⟨evs', r'⟩
      rw [hrec] at h
      simp only [Prod.mk.injEq] at h
      have : okTagTargets (.ok (name, haf) :: rest) =
          haf :: okTagTargets rest := by
        simp [okTagTargets]
      rw [this, List.foldl_cons]
      exact ih (by rw [hrec, h.2])

/-- The temp-root loop folds every temp tag into the accumulator. -/
theorem addTempRoots_out (temps : List HashAndFormat) :
    ∀ acc : List HashAndFormat,
      (addTempRoots temps acc).2 =
        List.foldl (fun rs haf => insertRoot haf rs) acc temps := by
  induction temps with
  | nil => intro acc; rfl
  | cons haf rest ih =>
    intro acc
    unfold addTempRoots
    rcases hrec : addTempRoots rest (insertRoot haf acc) with ⟨evs', out'⟩
    simp only [hrec, List.foldl_cons]
    have := ih (insertRoot haf acc)
    rw [hrec] at this
    exact this

/-- A successful extra-root loop folds every decoded extra root into the
accumulator. -/
theorem addExtraRoots_ok {extra : List (Except Err HashAndFormat)} :
    ∀ {acc : List HashAndFormat} {evs : List GcMarkEvent}
      {out : List HashAndFormat},
      addExtraRoots extra acc = (evs, .ok out) →
      out = List.foldl (fun rs haf => insertRoot haf rs) acc
        (extraVals extra) := by
  induction extra with
  | nil =>
    intro acc evs out h
    simp only [addExtraRoots, Prod.mk.injEq, Except.ok.injEq] at h
    simp [extraVals, h.2.symm]
  | cons i rest ih =>
    intro acc evs out h
    rcases i with e | haf
    · simp [addExtraRoots] at h
    · unfold addExtraRoots at h
      rcases hrec : addExtraRoots rest (insertRoot haf acc) with ⟨evs', r'⟩
      rw [hrec] at h
      simp only [Prod.mk.injEq] at h
      have : extraVals (.ok haf :: rest) = haf :: extraVals rest := by
        simp [extraVals]
      rw [this, List.foldl_cons]
      exact ih (by rw [hrec, h.2])

/-- A successful root collection computes exactly `rootsOf`. -/
theorem collectRoots_ok {s : Store} {extra : List (Except Err HashAndFormat)}
    {evs : List GcMarkEvent} {roots : List HashAndFormat}
    (h : collectRoots s extra = (evs, .ok roots)) :
    roots = rootsOf s extra := by
  unfold collectRoots at h
  rcases htags : s.tags with e | items <;> rw [htags] at h <;>
    (try simp only at h)
  · simp at h
  · rcases h1 : addTagRoots items [] with ⟨evs1, r1⟩
    rw [h1] at h
    simp only at h
    rcases r1 with e | roots1
    · simp at h
    · simp only at h
      rcases h2 : addTempRoots s.temp_tags roots1 with ⟨evs2, roots2⟩
      rw [h2] at h
      simp only at h
      rcases h3 : addExtraRoots extra roots2 with ⟨evs3, r3⟩
      rw [h3] at h
      simp only [Prod.mk.injEq] at h
      have h3' : addExtraRoots extra roots2 = (evs3, .ok roots) := by
        rw [h3, h.2]
      have e3 : roots = List.foldl (fun rs haf => insertRoot haf rs) roots2
          (extraVals extra) := addExtraRoots_ok h3'
      have e2 : roots2 = List.foldl (fun rs haf => insertRoot haf rs) roots1
          s.temp_tags := by
        have := addTempRoots_out s.temp_tags roots1
        rw [h2] at this
        exact this
      have e1 : roots1 = List.foldl (fun rs haf => insertRoot haf rs) []
          (okTagTargets items) := addTagRoots_ok h1
      have htt : tagTargets s = okTagTargets items := by
        simp [tagTargets, htags]
      rw [e3, e2, e1, ← htt]
      unfold rootsOf
      rw [List.foldl_append, List.foldl_append]

/-- On success, `gc_mark_task` publishes exactly one `add_live` call,
holding `markLive` of the collected roots. -/
theorem gc_mark_task_ok_addLive {s : Store}
    {extra : List (Except Err HashAndFormat)}
    (h : (gc_mark_task s extra).result = .ok ()) :
    (gc_mark_task s extra).addLiveCalls = [markLive s (rootsOf s extra)] := by
  unfold gc_mark_task at h ⊢
  rcases h1 : collectRoots s extra with ⟨evs1, r1⟩
  rw [h1] at h
  (try simp only at h ⊢)
  rcases r1 with e | roots
  · simp at h
  · (try simp only at h ⊢)
    rcases h2 : markRoots s roots [] with ⟨evs2, r2⟩
    rw [h2] at h
    (try simp only at h ⊢)
    rcases r2 with e | live
    · simp at h
    · simp only [List.cons.injEq, and_true]
      have hl : live = List.foldl (processRoot s) [] roots :=
        markRoots_ok_live (by rw [h2])
      rw [hl, collectRoots_ok h1]
      rfl

/-- Every published live list of a mark run is `markLive` of the roots
(and publication only happens on success). -/
theorem gc_mark_task_addLive_ok {s : Store}
    {extra : List (Except Err HashAndFormat)} {l : List Hash}
    (h : (gc_mark_task s extra).addLiveCalls = [l]) :
    l = markLive s (rootsOf s extra) ∧
      (gc_mark_task s extra).result = .ok () := by
  unfold gc_mark_task at h ⊢
  rcases h1 : collectRoots s extra with ⟨evs1, r1⟩
  rw [h1] at h
  (try simp only at h ⊢)
  rcases r1 with e | roots
  · simp at h
  · (try simp only at h ⊢)
    rcases h2 : markRoots s roots [] with ⟨evs2, r2⟩
    rw [h2] at h
    (try simp only at h ⊢)
    rcases r2 with e | live
    · simp at h
    · simp only [List.cons.injEq, and_true] at h
      refine ⟨?_, rfl⟩
      have hl : live = List.foldl (processRoot s) [] roots :=
        markRoots_ok_live (by rw [h2])
      rw [← h, hl, collectRoots_ok h1]
      rfl

/-- Membership in the marked live set, characterised: a hash is marked
exactly when it was live already, is the hash of some root, or is a
decoded child of a non-`Raw` root whose hash was newly inserted at its
processing step. -/
theorem mem_foldl_processRoot {s : Store} {roots : List HashAndFormat} :
    ∀ {live : List Hash} {x : Hash},
      x ∈ List.foldl (processRoot s) live roots ↔
        x ∈ live ∨ (∃ r ∈ roots, r.hash = x) ∨
          ∃ pre r post, roots = pre ++ r :: post ∧ r.format.is_raw = false ∧
            r.hash ∉ List.foldl (processRoot s) live pre ∧
            x ∈ childrenOf s r.hash := by
  induction roots with
  | nil =>
    intro live x
    simp
  | cons q rs ih =>
    intro live x
    rw [List.foldl_cons, ih]
    constructor
    · rintro (hq | ⟨r, hr, rfl⟩ | ⟨pre, r, post, rfl, hraw, hfresh, hchild⟩)
      · rcases mem_processRoot.mp hq with hl | rfl | ⟨hq1, hq2, hq3⟩
        · exact Or.inl hl
        · exact Or.inr (Or.inl ⟨q, List.mem_cons_self q rs, rfl⟩)
        · refine Or.inr (Or.inr ⟨[], q, rs, rfl, hq2, ?_, hq3⟩)
          simpa using hq1
      · exact Or.inr (Or.inl ⟨r, List.mem_cons_of_mem _ hr, rfl⟩)
      · refine Or.inr (Or.inr ⟨q :: pre, r, post, rfl, hraw, ?_, hchild⟩)
        rw [List.foldl_cons]
        exact hfresh
    · rintro (hl | ⟨r, hr, rfl⟩ | ⟨pre, r, post, heq, hraw, hfresh, hchild⟩)
      · exact Or.inl (subset_processRoot hl)
      · rcases List.mem_cons.mp hr with rfl | hr
        · exact Or.inl (hash_mem_processRoot s live r)
        · exact Or.inr (Or.inl ⟨r, hr, rfl⟩)
      · rcases List.cons_eq_append_iff.mp heq with ⟨rfl, hpost⟩ | ⟨pre', rfl, hrs⟩
        · injection hpost with h1 h2
          subst h1
          subst h2
          refine Or.inl (mem_processRoot.mpr (Or.inr (Or.inr ⟨?_, hraw, hchild⟩)))
          simpa using hfresh
        · subst hrs
          refine Or.inr (Or.inr ⟨pre', r, post, rfl, hraw, ?_, hchild⟩)
          rw [List.foldl_cons] at hfresh
          exact hfresh

/-- Under the mark-order side condition, everything reachable from a
root in the list is in the marked live set. -/
theorem reachable_subset_markLive {s : Store} {roots : List HashAndFormat} :
    ∀ {live : List Hash}, rootsOk s live roots = true →
      ∀ r ∈ roots, ∀ x ∈ reachableFrom s r,
        x ∈ List.foldl (processRoot s) live roots := by
  induction roots with
  | nil =>
    intro live _ r hr
    exact absurd hr (List.not_mem_nil r)
  | cons q rs ih =>
    intro live hok r hr x hx
    rw [List.foldl_cons]
    unfold rootsOk at hok
    rw [Bool.and_eq_true] at hok
    obtain ⟨hq, hok'⟩ := hok
    rcases List.mem_cons.mp hr with rfl | hr
    · refine subset_foldl_processRoot ?_
      unfold reachableFrom at hx
      rcases List.mem_cons.mp hx with rfl | hx2
      · exact hash_mem_processRoot s live r
      · rcases hraw : r.format.is_raw with _ | _
        · rw [hraw] at hx2
          simp only [Bool.false_eq_true, if_false] at hx2
          rw [hraw, Bool.false_or] at hq
          have hnot : r.hash ∉ live := of_decide_eq_true hq
          exact mem_processRoot.mpr (Or.inr (Or.inr ⟨hnot, hraw, hx2⟩))
        · rw [hraw] at hx2
          simp at hx2
    · exact ih hok' r hr x hx

/-! ## Lemmas about the sweep loop -/

/-- Every hash the sweep loop hands to `delete` — and every hash left in
the final batch — failed the `is_live` check. -/
theorem sweepLoop_not_live {s : Store} {il : Hash → Bool} :
    ∀ {items : List (Except Err Hash)} {count : Nat} {batch : List Hash}
      {calls : List (List Hash)} {r : Except Err (Nat × List Hash)},
      sweepLoop s il items count batch = (calls, r) →
      (∀ x ∈ batch, il x = false) →
      (∀ b ∈ calls, ∀ x ∈ b, il x = false) ∧
        (∀ c rem, r = .ok (c, rem) → ∀ x ∈ rem, il x = false) := by
  intro items
  induction items with
  | nil =>
    intro count batch calls r h hbatch
    simp only [sweepLoop, Prod.mk.injEq] at h
    refine ⟨?_, ?_⟩
    · intro b hb
      rw [← h.1] at hb
      exact absurd hb (List.not_mem_nil b)
    · intro c rem hr
      rw [← h.2] at hr
      injection hr with hr
      injection hr with _ hrem
      rw [← hrem]
      exact hbatch
  | cons i rest ih =>
    intro count batch calls r h hbatch
    rcases i with e | hh
    · simp only [sweepLoop, Prod.mk.injEq] at h
      refine ⟨?_, ?_⟩
      · intro b hb
        rw [← h.1] at hb
        exact absurd hb (List.not_mem_nil b)
      · intro c rem hr
        rw [← h.2] at hr
        simp at hr
    · unfold sweepLoop at h
      rcases hil : il hh with _ | _ <;> rw [hil] at h <;>
        simp only [Bool.false_eq_true, if_false, if_true] at h
      · -- not live: pushed
        have hbatch' : ∀ x ∈ batch ++ [hh], il x = false := by
          intro x hx
          rcases List.mem_append.mp hx with hx | hx
          · exact hbatch x hx
          · rw [List.mem_singleton.mp hx]
            exact hil
        by_cases hlen : (batch ++ [hh]).length ≥ 100
        · rw [if_pos hlen] at h
          rcases hdel : s.delete (batch ++ [hh]) with e | u <;> rw [hdel] at h <;>
            simp only at h
          · rw [Prod.mk.injEq] at h
            refine ⟨?_, ?_⟩
            · intro b hb
              rw [← h.1] at hb
              rw [List.mem_singleton.mp hb]
              exact hbatch'
            · intro c rem hr
              rw [← h.2] at hr
              simp at hr
          · rcases hrec : sweepLoop s il rest (count + 1) [] with ⟨calls', r'⟩
            rw [hrec] at h
            simp only [Prod.mk.injEq] at h
            have := ih hrec (by intro x hx; exact absurd hx (List.not_mem_nil x))
            refine ⟨?_, ?_⟩
            · intro b hb
              rw [← h.1] at hb
              rcases List.mem_cons.mp hb with rfl | hb
              · exact hbatch'
              · exact this.1 b hb
            · intro c rem hr
              rw [← h.2] at hr
              exact this.2 c rem hr
        · rw [if_neg hlen] at h
          exact ih h hbatch'
      · -- live: skipped
        by_cases hlen : batch.length ≥ 100
        · rw [if_pos hlen] at h
          rcases hdel : s.delete batch with e | u <;> rw [hdel] at h <;>
            simp only at h
          · rw [Prod.mk.injEq] at h
            refine ⟨?_, ?_⟩
            · intro b hb
              rw [← h.1] at hb
              rw [List.mem_singleton.mp hb]
              exact hbatch
            · intro c rem hr
              rw [← h.2] at hr
              simp at hr
          · rcases hrec : sweepLoop s il rest count [] with ⟨calls', r'⟩
            rw [hrec] at h
            simp only [Prod.mk.injEq] at h
            have := ih hrec (by intro x hx; exact absurd hx (List.not_mem_nil x))
            refine ⟨?_, ?_⟩
            · intro b hb
              rw [← h.1] at hb
              rcases List.mem_cons.mp hb with rfl | hb
              · exact hbatch
              · exact this.1 b hb
            · intro c rem hr
              rw [← h.2] at hr
              exact this.2 c rem hr
        · rw [if_neg hlen] at h
          exact ih h hbatch

/-- When `delete` always succeeds, the sweep loop over an error-free
item list deletes exactly the non-live hashes in order, in full batches
of 100, leaving a remainder batch of at most 99 and adding the number of
non-live hashes to the running count. -/
theorem sweepLoop_ok_spec {s : Store} {il : Hash → Bool}
    (hdel : ∀ b, s.delete b = .ok ()) :
    ∀ (hs : List Hash) (count : Nat) (batch : List Hash),
      batch.length ≤ 99 →
      ∃ calls rem,
        sweepLoop s il (hs.map Except.ok) count batch =
          (calls, .ok (count + (hs.filter (fun h => !il h)).length, rem)) ∧
        calls.flatten ++ rem = batch ++ hs.filter (fun h => !il h) ∧
        rem.length ≤ 99 ∧ (∀ b ∈ calls, b.length = 100) := by
  intro hs
  induction hs with
  | nil =>
    intro count batch h99
    refine ⟨[], batch, ?_, by simp, h99, by simp⟩
    simp [sweepLoop]
  | cons hh rest ih =>
    intro count batch h99
    rcases hil : il hh with _ | _
    · -- not live: push
      have hfc : (hh :: rest).filter (fun h => !il h) =
          hh :: rest.filter (fun h => !il h) := by
        simp [List.filter_cons, hil]
      have hcnt : count + ((hh :: rest).filter (fun h => !il h)).length
          = count + 1 + (rest.filter (fun h => !il h)).length := by
        rw [hfc, List.length_cons]
        omega
      by_cases hfull : batch.length = 99
      · -- the pushed batch reaches 100: delete and reset
        obtain ⟨calls, rem, heq, hflat, hrem, hlens⟩ := ih (count + 1) [] (by simp)
        refine ⟨(batch ++ [hh]) :: calls, rem, ?_, ?_, hrem, ?_⟩
        · show sweepLoop s il (.ok hh :: rest.map Except.ok) count batch = _
          unfold sweepLoop
          rw [hil]
          simp only [Bool.false_eq_true, if_false]
          rw [if_pos (by
            simp only [List.length_append, List.length_cons, List.length_nil,
              hfull]
            omega)]
          rw [hdel (batch ++ [hh]), hcnt, heq]
        · rw [hfc, List.flatten_cons, List.append_assoc, hflat]
          simp
        · intro b hb
          rcases List.mem_cons.mp hb with rfl | hb
          · simp [hfull]
          · exact hlens b hb
      · -- batch stays under 100
        obtain ⟨calls, rem, heq, hflat, hrem, hlens⟩ :=
          ih (count + 1) (batch ++ [hh]) (by
            simp only [List.length_append, List.length_cons, List.length_nil]
            omega)
        refine ⟨calls, rem, ?_, ?_, hrem, hlens⟩
        · show sweepLoop s il (.ok hh :: rest.map Except.ok) count batch = _
          unfold sweepLoop
          rw [hil]
          simp only [Bool.false_eq_true, if_false]
          rw [if_neg (by
            simp only [List.length_append, List.length_cons, List.length_nil]
            omega)]
          rw [hcnt, heq]
        · rw [hflat, hfc]
          simp
    · -- live: skip
      have hfc : (hh :: rest).filter (fun h => !il h) =
          rest.filter (fun h => !il h) := by
        simp [List.filter_cons, hil]
      obtain ⟨calls, rem, heq, hflat, hrem, hlens⟩ := ih count batch h99
      refine ⟨calls, rem, ?_, ?_, hrem, hlens⟩
      · show sweepLoop s il (.ok hh :: rest.map Except.ok) count batch = _
        unfold sweepLoop
        rw [hil]
        simp only [if_true]
        rw [if_neg (by omega), hfc, heq]
      · rw [hflat, hfc]

/-- Unconditionally, every batch the sweep loop deletes is non-empty and
holds at most 100 hashes, and the leftover batch stays under 100. -/
theorem sweepLoop_bounds {s : Store} {il : Hash → Bool} :
    ∀ {items : List (Except Err Hash)} {count : Nat} {batch : List Hash}
      {calls : List (List Hash)} {r : Except Err (Nat × List Hash)},
      sweepLoop s il items count batch = (calls, r) →
      batch.length ≤ 99 →
      (∀ b ∈ calls, 0 < b.length ∧ b.length ≤ 100) ∧
        (∀ c rem, r = .ok (c, rem) → rem.length ≤ 99) := by
  intro items
  induction items with
  | nil =>
    intro count batch calls r h h99
    simp only [sweepLoop, Prod.mk.injEq] at h
    refine ⟨?_, ?_⟩
    · intro b hb
      rw [← h.1] at hb
      exact absurd hb (List.not_mem_nil b)
    · intro c rem hr
      rw [← h.2] at hr
      injection hr with hr
      injection hr with _ hrem
      rw [← hrem]
      exact h99
  | cons i rest ih =>
    intro count batch calls r h h99
    rcases i with e | hh
    · simp only [sweepLoop, Prod.mk.injEq] at h
      refine ⟨?_, ?_⟩
      · intro b hb
        rw [← h.1] at hb
        exact absurd hb (List.not_mem_nil b)
      · intro c rem hr
        rw [← h.2] at hr
        simp at hr
    · unfold sweepLoop at h
      rcases hil : il hh with _ | _ <;> rw [hil] at h <;>
        simp only [Bool.false_eq_true, if_false, if_true] at h
      · -- pushed
        by_cases hlen : (batch ++ [hh]).length ≥ 100
        · have hlen100 : (batch ++ [hh]).length = 100 := by
            simp only [List.length_append, List.length_cons,
              List.length_nil] at hlen ⊢
            omega
          rw [if_pos hlen] at h
          rcases hdel : s.delete (batch ++ [hh]) with e | u <;> rw [hdel] at h <;>
            simp only at h
          · rw [Prod.mk.injEq] at h
            refine ⟨?_, ?_⟩
            · intro b hb
              rw [← h.1] at hb
              rw [List.mem_singleton.mp hb, hlen100]
              omega
            · intro c rem hr
              rw [← h.2] at hr
              simp at hr
          · rcases hrec : sweepLoop s il rest (count + 1) [] with ⟨calls2, r2⟩
            rw [hrec] at h
            simp only [Prod.mk.injEq] at h
            have := ih hrec (by simp)
            refine ⟨?_, ?_⟩
            · intro b hb
              rw [← h.1] at hb
              rcases List.mem_cons.mp hb with rfl | hb
              · rw [hlen100]
                omega
              · exact this.1 b hb
            · intro c rem hr
              rw [← h.2] at hr
              exact this.2 c rem hr
        · rw [if_neg hlen] at h
          refine ih h ?_
          simp only [List.length_append, List.length_cons, List.length_nil] at hlen ⊢
          omega
      · -- skipped
        have hlen : ¬ batch.length ≥ 100 := by omega
        rw [if_neg hlen] at h
        exact ih h h99

/-- When every item is error-free, a sweep-loop error comes from a
`delete` call, and that call is the last one of the trace. -/
theorem sweepLoop_error_last {s : Store} {il : Hash → Bool} :
    ∀ {hs : List Hash} {count : Nat} {batch : List Hash}
      {calls : List (List Hash)} {e : Err},
      sweepLoop s il (hs.map Except.ok) count batch = (calls, .error e) →
      ∃ pre b, calls = pre ++ [b] ∧ s.delete b = .error e := by
  intro hs
  induction hs with
  | nil =>
    intro count batch calls e h
    simp [sweepLoop] at h
  | cons hh rest ih =>
    intro count batch calls e h
    rw [List.map_cons] at h
    unfold sweepLoop at h
    rcases hil : il hh with _ | _ <;> rw [hil] at h <;>
      simp only [Bool.false_eq_true, if_false, if_true] at h
    · by_cases hlen : (batch ++ [hh]).length ≥ 100
      · rw [if_pos hlen] at h
        rcases hdel : s.delete (batch ++ [hh]) with e2 | u <;> rw [hdel] at h <;>
          simp only at h
        · rw [Prod.mk.injEq] at h
          refine ⟨[], batch ++ [hh], by simp [← h.1], ?_⟩
          rw [hdel]
          injection h.2 with h2
          rw [h2]
        · rcases hrec : sweepLoop s il (rest.map Except.ok) (count + 1) []
            with ⟨calls2, r2⟩
          rw [hrec] at h
          rw [Prod.mk.injEq] at h
          have h2 : r2 = .error e := h.2
          obtain ⟨pre, b, hsplit, hb⟩ := ih (by rw [hrec, h2])
          exact ⟨(batch ++ [hh]) :: pre, b, by rw [← h.1, hsplit]; simp, hb⟩
      · rw [if_neg hlen] at h
        exact ih h
    · by_cases hlen : batch.length ≥ 100
      · rw [if_pos hlen] at h
        rcases hdel : s.delete batch with e2 | u <;> rw [hdel] at h <;>
          simp only at h
        · rw [Prod.mk.injEq] at h
          refine ⟨[], batch, by simp [← h.1], ?_⟩
          rw [hdel]
          injection h.2 with h2
          rw [h2]
        · rcases hrec : sweepLoop s il (rest.map Except.ok) count []
            with ⟨calls2, r2⟩
          rw [hrec] at h
          rw [Prod.mk.injEq] at h
          have h2 : r2 = .error e := h.2
          obtain ⟨pre, b, hsplit, hb⟩ := ih (by rw [hrec, h2])
          exact ⟨batch :: pre, b, by rw [← h.1, hsplit]; simp, hb⟩
      · rw [if_neg hlen] at h
        exact ih h

/-- Every hash a sweep run passes to `delete` failed the `is_live`
check. -/
theorem gc_sweep_not_live {s : Store} {il : Hash → Bool} :
    ∀ x ∈ deleted (gc_sweep_task s il), il x = false := by
  intro x hx
  unfold gc_sweep_task at hx
  rcases hb : s.blobs with e | bs <;> rw [hb] at hx <;> (try simp only at hx)
  · simp [deleted] at hx
  · rcases hp : s.partial_blobs with e | ps <;> rw [hp] at hx <;>
      (try simp only at hx)
    · simp [deleted] at hx
    · rcases hloop : sweepLoop s il (bs ++ ps) 0 [] with ⟨calls, r⟩
      rw [hloop] at hx
      simp only at hx
      have hnl := sweepLoop_not_live hloop
        (by intro y hy; exact absurd hy (List.not_mem_nil y))
      rcases r with e | ⟨count, batch⟩
      · simp only [deleted] at hx
        obtain ⟨b, hbmem, hxb⟩ := List.mem_flatten.mp hx
        exact hnl.1 b hbmem x hxb
      · simp only at hx
        by_cases hempty : batch.isEmpty
        · rw [if_pos hempty] at hx
          simp only [deleted] at hx
          obtain ⟨b, hbmem, hxb⟩ := List.mem_flatten.mp hx
          exact hnl.1 b hbmem x hxb
        · rw [if_neg hempty] at hx
          rcases hdel : s.delete batch with e | u <;> rw [hdel] at hx <;>
            simp only [deleted] at hx <;>
            obtain ⟨b, hbmem, hxb⟩ := List.mem_flatten.mp hx <;>
            rcases List.mem_append.mp hbmem with hbm | hbm
          · exact hnl.1 b hbm x hxb
          · rw [List.mem_singleton.mp hbm] at hxb
            exact hnl.2 count batch rfl x hxb
          · exact hnl.1 b hbm x hxb
          · rw [List.mem_singleton.mp hbm] at hxb
            exact hnl.2 count batch rfl x hxb

/-- The fine structure of a successful sweep over error-free iterators
with an error-free `delete`: the calls are full batches of 100 plus the
flushed remainder, their concatenation is exactly the non-live hashes in
order, and the one summary event counts them. -/
theorem gc_sweep_ok_spec {s : Store} {il : Hash → Bool}
    (hdel : ∀ b, s.delete b = .ok ()) {hs1 hs2 : List Hash}
    (hb : s.blobs = .ok (hs1.map Except.ok))
    (hp : s.partial_blobs = .ok (hs2.map Except.ok)) :
    ∃ calls rem,
      (gc_sweep_task s il).result = .ok () ∧
      (gc_sweep_task s il).deleteCalls =
        calls ++ (if rem.isEmpty then [] else [rem]) ∧
      calls.flatten ++ rem = (hs1 ++ hs2).filter (fun h => !il h) ∧
      (∀ b ∈ calls, b.length = 100) ∧ rem.length ≤ 99 ∧
      (gc_sweep_task s il).events =
        [.deletedBlobs ((hs1 ++ hs2).filter (fun h => !il h)).length] := by
  obtain ⟨calls, rem, heq, hflat, hrem, hlens⟩ :=
    @sweepLoop_ok_spec s il hdel (hs1 ++ hs2) 0 [] (by simp)
  have hmap : hs1.map (Except.ok : Hash → Except Err Hash) ++
      hs2.map (Except.ok : Hash → Except Err Hash) =
      (hs1 ++ hs2).map (Except.ok : Hash → Except Err Hash) :=
    (List.map_append _ hs1 hs2).symm
  refine ⟨calls, rem, ?_⟩
  unfold gc_sweep_task
  rw [hb]
  simp only
  rw [hp]
  simp only
  rw [hmap, heq]
  simp only
  rw [List.nil_append] at hflat
  by_cases hempty : rem.isEmpty
  · rw [if_pos hempty]
    have hrnil : rem = [] := List.isEmpty_iff.mp hempty
    rw [hrnil] at hflat
    rw [List.append_nil] at hflat
    refine ⟨rfl, by rw [if_pos hempty, List.append_nil], ?_, hlens, hrem, ?_⟩
    · rw [hrnil, List.append_nil]
      exact hflat
    · rw [← hflat]
      simp [Nat.zero_add]
  · rw [if_neg hempty]
    rw [hdel rem]
    refine ⟨rfl, by rw [if_neg hempty], hflat, hlens, hrem, ?_⟩
    rw [← hflat]
    simp [Nat.zero_add]

/-- The flattened length of a list of lists that all have length 100. -/
theorem flatten_length_100 {calls : List (List Hash)}
    (h : ∀ b ∈ calls, b.length = 100) :
    calls.flatten.length = 100 * calls.length := by
  induction calls with
  | nil => simp
  | cons b rest ih =>
    rw [List.flatten_cons, List.length_append, List.length_cons,
      h b (List.mem_cons_self b rest),
      ih (fun b2 hb2 => h b2 (List.mem_cons_of_mem b hb2))]
    ring

/-! ## Lemmas about mark-phase error handling -/

/-- When `store.get` never fails, the marking loop always completes. -/
theorem markRoots_ok_exists {s : Store}
    (hget : ∀ h e, s.get h ≠ .error e) :
    ∀ (roots : List HashAndFormat) (live : List Hash),
      ∃ evs l, markRoots s roots live = (evs, .ok l) := by
  intro roots
  induction roots with
  | nil => intro live; exact ⟨[], live, rfl⟩
  | cons r rest ih =>
    intro live
    obtain ⟨hh, fmt⟩ := r
    unfold markRoots
    rcases hcond : (decide (hh ∈ live) || fmt.is_raw) with _ | _ <;>
      simp only [hcond, Bool.false_eq_true, if_false, if_true]
    · rcases hget2 : s.get hh with e | oe
      · exact absurd hget2 (hget hh e)
      · rcases oe with _ | entry
        · obtain ⟨evs, l, hrec⟩ := ih (insertLive hh live)
          simp only
          rw [hrec]
          exact ⟨_, _, rfl⟩
        · simp only
          rcases hcomp : entry.isComplete with _ | _ <;>
            simp only [hcomp, Bool.true_eq_false, Bool.false_eq_true, if_false,
              if_true]
          · obtain ⟨evs, l, hrec⟩ := ih (insertLive hh live)
            rw [hrec]
            exact ⟨_, _, rfl⟩
          · rcases hrd : entry.reader with _ | po <;> (try simp only)
            · obtain ⟨evs, l, hrec⟩ := ih (insertLive hh live)
              rw [hrec]
              exact ⟨_, _, rfl⟩
            · rcases po with _ | ⟨count, children, trunc⟩ <;> (try simp only)
              · obtain ⟨evs, l, hrec⟩ := ih (insertLive hh live)
                rw [hrec]
                exact ⟨_, _, rfl⟩
              · obtain ⟨evs, l, hrec⟩ :=
                  ih (insertAllLive children (insertLive hh live))
                rw [hrec]
                exact ⟨_, _, rfl⟩
    · obtain ⟨evs, l, hrec⟩ := ih (insertLive hh live)
      exact ⟨evs, l, hrec⟩

/-- When every tag item decodes, the tag-root loop completes. -/
theorem addTagRoots_ok_exists
    {items : List (Except Err (Tag × HashAndFormat))}
    (hall : ∀ i ∈ items, ∃ v, i = .ok v) :
    ∀ acc, ∃ evs out, addTagRoots items acc = (evs, .ok out) := by
  induction items with
  | nil => intro acc; exact ⟨[], acc, rfl⟩
  | cons i rest ih =>
    intro acc
    obtain ⟨⟨name, haf⟩, rfl⟩ := hall i (List.mem_cons_self i rest)
    obtain ⟨evs, out, hrec⟩ :=
      ih (fun j hj => hall j (List.mem_cons_of_mem _ hj)) (insertRoot haf acc)
    unfold addTagRoots
    rw [hrec]
    exact ⟨_, _, rfl⟩

/-- When every extra root decodes, the extra-root loop completes. -/
theorem addExtraRoots_ok_exists {extra : List (Except Err HashAndFormat)}
    (hall : ∀ i ∈ extra, ∃ v, i = .ok v) :
    ∀ acc, ∃ evs out, addExtraRoots extra acc = (evs, .ok out) := by
  induction extra with
  | nil => intro acc; exact ⟨[], acc, rfl⟩
  | cons i rest ih =>
    intro acc
    obtain ⟨haf, rfl⟩ := hall i (List.mem_cons_self i rest)
    obtain ⟨evs, out, hrec⟩ :=
      ih (fun j hj => hall j (List.mem_cons_of_mem _ hj)) (insertRoot haf acc)
    unfold addExtraRoots
    rw [hrec]
    exact ⟨_, _, rfl⟩

/-- When the iterators are error-free, root collection completes. -/
theorem collectRoots_ok_exists {s : Store}
    {extra : List (Except Err HashAndFormat)}
    {items : List (Except Err (Tag × HashAndFormat))}
    (htags : s.tags = .ok items)
    (hitems : ∀ i ∈ items, ∃ v, i = .ok v)
    (hextra : ∀ i ∈ extra, ∃ v, i = .ok v) :
    ∃ evs roots, collectRoots s extra = (evs, .ok roots) := by
  unfold collectRoots
  rw [htags]
  simp only
  obtain ⟨evs1, out1, h1⟩ := addTagRoots_ok_exists hitems []
  rw [h1]
  simp only
  rcases h2 : addTempRoots s.temp_tags out1 with ⟨evs2, out2⟩
  obtain ⟨evs3, out3, h3⟩ := addExtraRoots_ok_exists hextra out2
  rw [h3]
  exact ⟨_, out3, rfl⟩

/-- When the tag iterator, the extra roots and `store.get` are all
error-free, the whole mark task completes. -/
theorem gc_mark_task_ok {s : Store} {extra : List (Except Err HashAndFormat)}
    {items : List (Except Err (Tag × HashAndFormat))}
    (htags : s.tags = .ok items)
    (hitems : ∀ i ∈ items, ∃ v, i = .ok v)
    (hextra : ∀ i ∈ extra, ∃ v, i = .ok v)
    (hget : ∀ h e, s.get h ≠ .error e) :
    (gc_mark_task s extra).result = .ok () := by
  unfold gc_mark_task
  obtain ⟨evs1, roots, h1⟩ := collectRoots_ok_exists htags hitems hextra
  rw [h1]
  simp only
  obtain ⟨evs2, live, h2⟩ := markRoots_ok_exists hget roots []
  rw [h2]

/-- A failed mark task publishes nothing and its generator ends in one
terminal `Error` event. -/
theorem gc_mark_task_error {s : Store}
    {extra : List (Except Err HashAndFormat)} {e : Err}
    (h : (gc_mark_task s extra).result = .error e) :
    gcMarkStream s extra = (gc_mark_task s extra).events ++ [.error e] ∧
      (gc_mark_task s extra).addLiveCalls = [] := by
  constructor
  · simp only [gcMarkStream, h]
  · unfold gc_mark_task at h ⊢
    rcases h1 : collectRoots s extra with ⟨evs1, r1⟩
    rw [h1] at h
    (try simp only at h ⊢)
    rcases r1 with e1 | roots
    · rfl
    · (try simp only at h ⊢)
      rcases h2 : markRoots s roots [] with ⟨evs2, r2⟩
      rw [h2] at h
      (try simp only at h ⊢)
      rcases r2 with e2 | live
      · rfl
      · simp at h

/-- In a successfully completing marking loop, a traversed root (fresh
hash, non-`Raw`) that runs into a non-fatal failure has its warning
among the yielded events. -/
theorem markRoots_warning {s : Store} :
    ∀ {pre : List HashAndFormat} {r : HashAndFormat}
      {post : List HashAndFormat} {live l : List Hash} {w : GcMarkEvent},
      (markRoots s (pre ++ r :: post) live).2 = .ok l →
      r.format.is_raw = false →
      r.hash ∉ List.foldl (processRoot s) live pre →
      failureWarning s r.hash = some w →
      w ∈ (markRoots s (pre ++ r :: post) live).1 := by
  intro pre
  induction pre with
  | nil =>
    intro r post live l w hres hraw hfresh hw
    obtain ⟨rh, rf⟩ := r
    simp only at hraw hfresh hw
    simp only [List.foldl_nil] at hfresh
    simp only [List.nil_append] at hres ⊢
    have hcond : (decide (rh ∈ live) || rf.is_raw) = false := by
      rw [hraw, decide_eq_false hfresh]
      rfl
    unfold markRoots at hres ⊢
    rw [hcond] at hres ⊢
    simp only [Bool.false_eq_true, if_false] at hres ⊢
    unfold failureWarning at hw
    rcases hget : s.get rh with e | oe <;> rw [hget] at hres hw
    · simp at hw
    · rcases oe with _ | entry <;> (try simp only at hres hw ⊢)
      · injection hw with hw
        rw [← hw]
        exact List.mem_cons_self _ _
      · rcases hcomp : entry.isComplete with _ | _ <;>
          rw [hcomp] at hres hw <;>
          (try simp only [eq_self_iff_true, Bool.true_eq_false,
            Bool.false_eq_true, if_false, if_true] at hres hw ⊢)
        · injection hw with hw
          rw [← hw]
          exact List.mem_cons_self _ _
        · rcases hrd : entry.reader with _ | po <;> rw [hrd] at hres hw <;>
            (try simp only at hres hw ⊢)
          · injection hw with hw
            rw [← hw]
            exact List.mem_cons_self _ _
          · rcases po with _ | ⟨count, children, trunc⟩ <;>
              (try simp only at hres hw ⊢)
            · injection hw with hw
              rw [← hw]
              exact List.mem_cons_self _ _
            · rcases trunc with _ | _ <;>
                (try simp only [Bool.false_eq_true, if_false, if_true]
                  at hres hw ⊢)
              · simp at hw
              · injection hw with hw
                rw [← hw]
                exact List.mem_cons_of_mem _
                  (List.mem_append_left _ (List.mem_singleton.mpr rfl))
  | cons p pre' ih =>
    intro r post live l w hres hraw hfresh hw
    obtain ⟨ph, pf⟩ := p
    rw [List.foldl_cons] at hfresh
    rw [List.cons_append] at hres ⊢
    unfold markRoots at hres ⊢
    rcases hcond : (decide (ph ∈ live) || pf.is_raw) with _ | _ <;>
      rw [hcond] at hres <;>
      simp only [Bool.false_eq_true, if_false, if_true] at hres ⊢
    · -- p is traversed
      rcases hget : s.get ph with e | oe <;> rw [hget] at hres
      · simp at hres
      · rcases oe with _ | entry <;> (try simp only at hres ⊢)
        · have hpr : processRoot s live ⟨ph, pf⟩ = insertLive ph live := by
            rw [processRoot_traverse hcond]
            have : childrenOf s ph = [] := by simp [childrenOf, hget]
            rw [this, insertAllLive_nil]
          rw [hpr] at hfresh
          rcases hmr : markRoots s (pre' ++ r :: post) (insertLive ph live)
            with ⟨evs2, r2⟩
          rw [hmr] at hres
          simp only at hres ⊢
          have := @ih r post (insertLive ph live) l w (by rw [hmr]; exact hres)
            hraw hfresh hw
          rw [hmr] at this
          exact List.mem_cons_of_mem _ this
        · rcases hcomp : entry.isComplete with _ | _ <;>
            rw [hcomp] at hres <;>
            (try simp only [eq_self_iff_true, Bool.true_eq_false,
              Bool.false_eq_true, if_false, if_true] at hres ⊢)
          · have hpr : processRoot s live ⟨ph, pf⟩ = insertLive ph live := by
              rw [processRoot_traverse hcond]
              have : childrenOf s ph = [] := by simp [childrenOf, hget, hcomp]
              rw [this, insertAllLive_nil]
            rw [hpr] at hfresh
            rcases hmr : markRoots s (pre' ++ r :: post) (insertLive ph live)
              with ⟨evs2, r2⟩
            rw [hmr] at hres
            simp only at hres ⊢
            have := @ih r post (insertLive ph live) l w (by rw [hmr]; exact hres)
              hraw hfresh hw
            rw [hmr] at this
            exact List.mem_cons_of_mem _ this
          · rcases hrd : entry.reader with _ | po <;> rw [hrd] at hres <;>
              (try simp only at hres ⊢)
            · have hpr : processRoot s live ⟨ph, pf⟩ = insertLive ph live := by
                rw [processRoot_traverse hcond]
                have : childrenOf s ph = [] := by
                  simp [childrenOf, hget, hcomp, hrd]
                rw [this, insertAllLive_nil]
              rw [hpr] at hfresh
              rcases hmr : markRoots s (pre' ++ r :: post) (insertLive ph live)
                with ⟨evs2, r2⟩
              rw [hmr] at hres
              simp only at hres ⊢
              have := @ih r post (insertLive ph live) l w (by rw [hmr]; exact hres)
                hraw hfresh hw
              rw [hmr] at this
              exact List.mem_cons_of_mem _ this
            · rcases po with _ | ⟨count, children, trunc⟩ <;>
                (try simp only at hres ⊢)
              · have hpr : processRoot s live ⟨ph, pf⟩ = insertLive ph live := by
                  rw [processRoot_traverse hcond]
                  have : childrenOf s ph = [] := by
                    simp [childrenOf, hget, hcomp, hrd]
                  rw [this, insertAllLive_nil]
                rw [hpr] at hfresh
                rcases hmr : markRoots s (pre' ++ r :: post)
                    (insertLive ph live) with ⟨evs2, r2⟩
                rw [hmr] at hres
                simp only at hres ⊢
                have := @ih r post (insertLive ph live) l w (by rw [hmr]; exact hres)
                  hraw hfresh hw
                rw [hmr] at this
                exact List.mem_cons_of_mem _ this
              · have hpr : processRoot s live ⟨ph, pf⟩ =
                    insertAllLive children (insertLive ph live) := by
                  rw [processRoot_traverse hcond]
                  have : childrenOf s ph = children := by
                    simp [childrenOf, hget, hcomp, hrd]
                  rw [this]
                rw [hpr] at hfresh
                rcases hmr : markRoots s (pre' ++ r :: post)
                    (insertAllLive children (insertLive ph live))
                  with ⟨evs2, r2⟩
                rw [hmr] at hres
                simp only at hres ⊢
                have := @ih r post (insertAllLive children (insertLive ph live)) l w
                  (by rw [hmr]; exact hres) hraw hfresh hw
                rw [hmr] at this
                exact List.mem_cons_of_mem _ (List.mem_append_right _ this)
    · -- p is skipped
      rw [processRoot_skip hcond] at hfresh
      exact ih hres hraw hfresh hw

/-- A root's own hash is always in the marked live set. -/
theorem hash_mem_foldl_processRoot {s : Store} {roots : List HashAndFormat} :
    ∀ {live : List Hash} {r : HashAndFormat}, r ∈ roots →
      r.hash ∈ List.foldl (processRoot s) live roots := by
  induction roots with
  | nil =>
    intro live r hr
    exact absurd hr (List.not_mem_nil r)
  | cons q rs ih =>
    intro live r hr
    rw [List.foldl_cons]
    rcases List.mem_cons.mp hr with rfl | hr
    · exact subset_foldl_processRoot (hash_mem_processRoot s live r)
    · exact ih hr

/-- A hash published as live is never passed to `delete` by the
following sweep. -/
theorem not_deleted_of_live {s : Store} {live : List Hash} {x : Hash}
    (hx : x ∈ live) :
    x ∉ deleted (gc_sweep_task s (is_live_after live)) := by
  intro hdel
  have hfalse := gc_sweep_not_live x hdel
  simp only [is_live_after, decide_eq_false_iff_not] at hfalse
  exact hfalse hx

/-- Every event `failureWarning` classifies is a `CustomWarning`. -/
theorem failureWarning_kind {s : Store} {h : Hash} {w : GcMarkEvent}
    (hw : failureWarning s h = some w) : w.kind = .customWarning := by
  unfold failureWarning at hw
  rcases hval : s.get h with e | oe <;> rw [hval] at hw
  · simp at hw
  · rcases oe with _ | entry <;> (try simp only at hw)
    · injection hw with hw
      rw [← hw]
      rfl
    · rcases hcomp : entry.isComplete with _ | _ <;> rw [hcomp] at hw <;>
        (try simp only [eq_self_iff_true, Bool.true_eq_false, if_false,
          if_true] at hw)
      · injection hw with hw
        rw [← hw]
        rfl
      · rcases hrd : entry.reader with _ | po <;> rw [hrd] at hw <;>
          (try simp only at hw)
        · injection hw with hw
          rw [← hw]
          rfl
        · rcases po with _ | ⟨count, children, trunc⟩ <;>
            (try simp only at hw)
          · injection hw with hw
            rw [← hw]
            rfl
          · rcases trunc with _ | _ <;>
              (try simp only [Bool.false_eq_true, if_false, if_true] at hw)
            · simp at hw
            · injection hw with hw
              rw [← hw]
              rfl

/-! ## Claim theorems -/

/-- C1 (amended). After draining `gc_mark` (which publishes `live`
through its one `add_live` call) and then draining `gc_sweep` against
that live set: every hash pinned by a persistent tag or a held temp-tag
is in the live set and is never passed to `delete`; and — provided no
non-`Raw` root's hash is already in the live set when that root is
processed (no two roots share a hash, and no non-`Raw` root's hash was
decoded as a child of an earlier-processed root) — every hash reachable
from a persistent tag or held temp-tag (the root hash and, for a
non-`Raw` root, every child decoded from its complete hash-sequence
blob) is in the live set and is never passed to `delete`. -/
theorem gc_safety_amended (s : Store) (extra : List (Except Err HashAndFormat))
    (live : List Hash)
    (hmark : (gc_mark_task s extra).addLiveCalls = [live]) :
    (∀ r ∈ pinnedRoots s, r.hash ∈ live ∧
        r.hash ∉ deleted (gc_sweep_task s (is_live_after live))) ∧
      (rootsOk s [] (rootsOf s extra) = true →
        ∀ x ∈ reachable s, x ∈ live ∧
          x ∉ deleted (gc_sweep_task s (is_live_after live))) := by
  have hlive : live = markLive s (rootsOf s extra) :=
    (gc_mark_task_addLive_ok hmark).1
  constructor
  · intro r hr
    have hroot : r ∈ rootsOf s extra := by
      rw [mem_rootsOf]
      rcases List.mem_append.mp hr with h | h
      · exact Or.inl h
      · exact Or.inr (Or.inl h)
    have hmem : r.hash ∈ live := by
      rw [hlive]
      exact hash_mem_foldl_processRoot hroot
    exact ⟨hmem, not_deleted_of_live hmem⟩
  · intro hok x hx
    obtain ⟨r, hr, hxr⟩ := List.mem_flatMap.mp hx
    have hroot : r ∈ rootsOf s extra := by
      rw [mem_rootsOf]
      rcases List.mem_append.mp hr with h | h
      · exact Or.inl h
      · exact Or.inr (Or.inl h)
    have hmem : x ∈ live := by
      rw [hlive]
      exact reachable_subset_markLive hok r hroot x hxr
    exact ⟨hmem, not_deleted_of_live hmem⟩

/-- C1 counterexample. In `sCex`, hash `3` is reachable from the
persistent tag `"b"` (a complete hash-sequence root listing it), yet a
full mark cycle publishes only `[1, 2]` and the following sweep passes
`3` to `delete`: the claim as stated fails. -/
theorem gc_safety_cex :
    (gc_mark_task sCex []).addLiveCalls = [[1, 2]] ∧
      (3 : Hash) ∈ reachable sCex ∧
      (3 : Hash) ∈ deleted (gc_sweep_task sCex (is_live_after [1, 2])) := by
  refine ⟨by decide, by decide, by decide⟩

/-- C1 witness: in `sSafe` the side condition holds, and the reachable
child `2` survives the cycle. -/
theorem gc_safety_amended_witness :
    (2 : Hash) ∈ [1, 2] ∧
      (2 : Hash) ∉ deleted (gc_sweep_task sSafe (is_live_after [1, 2])) :=
  (gc_safety_amended sSafe [] [1, 2] (by decide)).2 (by decide) 2 (by decide)

/-- C2. A mark run that completes without a fatal error calls `add_live`
exactly once, with `markLive` of the deduplicated root set; that root
set is exactly the union of persistent tag targets, temp-tag targets and
extra roots; and a hash is in the published set exactly when it is some
root's hash, or a decoded child of a non-`Raw` root whose hash was newly
inserted at its processing step (children of children are never added:
one level only). -/
theorem gc_mark_correct (s : Store) (extra : List (Except Err HashAndFormat))
    (hok : (gc_mark_task s extra).result = .ok ()) :
    (gc_mark_task s extra).addLiveCalls = [markLive s (rootsOf s extra)] ∧
      (∀ r, r ∈ rootsOf s extra ↔
        r ∈ tagTargets s ∨ r ∈ s.temp_tags ∨ r ∈ extraVals extra) ∧
      (∀ x, x ∈ markLive s (rootsOf s extra) ↔
        (∃ r ∈ rootsOf s extra, r.hash = x) ∨
          ∃ pre r post, rootsOf s extra = pre ++ r :: post ∧
            r.format.is_raw = false ∧
            r.hash ∉ List.foldl (processRoot s) [] pre ∧
            x ∈ childrenOf s r.hash) := by
  refine ⟨gc_mark_task_ok_addLive hok, fun r => mem_rootsOf, fun x => ?_⟩
  unfold markLive
  rw [mem_foldl_processRoot]
  simp

/-- C2 witness: the mark run over `sSafe` publishes exactly one
`add_live` call holding `markLive` of its roots. -/
theorem gc_mark_correct_witness :
    (gc_mark_task sSafe []).addLiveCalls =
      [markLive sSafe (rootsOf sSafe [])] :=
  (gc_mark_correct sSafe [] (by rfl)).1

/-- C3. Over error-free blob iterators, the sweep passes to `delete`
exactly the hashes of `blobs() ++ partial_blobs()` for which `is_live`
is false, in order, in non-empty batches of at most 100; when `delete`
never fails the run succeeds, flushes the final non-empty batch, emits
exactly one summary debug event counting the deleted blobs, and 101
non-live blobs produce exactly two delete calls; an error returned by
`delete` aborts the sweep, the failing call being the last of the
trace. -/
theorem gc_sweep_correct (s : Store) (il : Hash → Bool) (hs1 hs2 : List Hash)
    (hb : s.blobs = .ok (hs1.map Except.ok))
    (hp : s.partial_blobs = .ok (hs2.map Except.ok)) :
    ((∀ b, s.delete b = .ok ()) →
      (gc_sweep_task s il).result = .ok () ∧
        (gc_sweep_task s il).deleteCalls.flatten =
          (hs1 ++ hs2).filter (fun h => !il h) ∧
        (gc_sweep_task s il).events =
          [.deletedBlobs ((hs1 ++ hs2).filter (fun h => !il h)).length] ∧
        (∀ b ∈ (gc_sweep_task s il).deleteCalls,
          0 < b.length ∧ b.length ≤ 100) ∧
        (((hs1 ++ hs2).filter (fun h => !il h)).length = 101 →
          (gc_sweep_task s il).deleteCalls.length = 2)) ∧
      (∀ e, (gc_sweep_task s il).result = .error e →
        ∃ pre b, (gc_sweep_task s il).deleteCalls = pre ++ [b] ∧
          s.delete b = .error e) := by
  constructor
  · intro hdel
    obtain ⟨calls, rem, hres, hcalls, hflat, hlens, hrem, hevents⟩ :=
      gc_sweep_ok_spec hdel hb hp
    refine ⟨hres, ?_, hevents, ?_, ?_⟩
    · rw [hcalls]
      by_cases he : rem.isEmpty
      · rw [if_pos he, List.append_nil]
        have hrnil := List.isEmpty_iff.mp he
        rw [hrnil, List.append_nil] at hflat
        exact hflat
      · rw [if_neg he, List.flatten_append]
        simp only [List.flatten_cons, List.flatten_nil, List.append_nil]
        exact hflat
    · intro b hb2
      rw [hcalls] at hb2
      rcases List.mem_append.mp hb2 with hmem | hmem
      · have := hlens b hmem
        omega
      · by_cases he : rem.isEmpty
        · rw [if_pos he] at hmem
          exact absurd hmem (List.not_mem_nil b)
        · rw [if_neg he] at hmem
          rw [List.mem_singleton.mp hmem]
          have hne : rem ≠ [] := by
            intro hcontra
            rw [hcontra] at he
            exact he rfl
          have := List.length_pos.mpr hne
          omega
    · intro h101
      have hfl := flatten_length_100 hlens
      have hlensum : 100 * calls.length + rem.length = 101 := by
        have := congrArg List.length hflat
        rw [List.length_append, hfl, h101] at this
        exact this
      rw [hcalls]
      by_cases he : rem.isEmpty
      · exfalso
        have hrnil := List.isEmpty_iff.mp he
        rw [hrnil] at hlensum
        simp only [List.length_nil] at hlensum
        omega
      · rw [if_neg he]
        have hne : rem ≠ [] := by
          intro hcontra
          rw [hcontra] at he
          exact he rfl
        have hpos := List.length_pos.mpr hne
        rw [List.length_append, List.length_cons, List.length_nil]
        omega
  · intro e herr
    have hmap : hs1.map (Except.ok : Hash → Except Err Hash) ++
        hs2.map (Except.ok : Hash → Except Err Hash) =
        (hs1 ++ hs2).map (Except.ok : Hash → Except Err Hash) :=
      (List.map_append _ hs1 hs2).symm
    unfold gc_sweep_task at herr ⊢
    rw [hb, hp] at herr ⊢
    simp only at herr ⊢
    rw [hmap] at herr ⊢
    rcases hloop : sweepLoop s il ((hs1 ++ hs2).map Except.ok) 0 []
      with ⟨calls, r⟩
    rw [hloop] at herr
    simp only at herr ⊢
    rcases r with e2 | ⟨count, batch⟩
    · simp only at herr ⊢
      injection herr with herr2
      obtain ⟨pre, b, hsplit, hdel2⟩ := sweepLoop_error_last
        (by rw [hloop, herr2])
      exact ⟨pre, b, hsplit, hdel2⟩
    · simp only at herr ⊢
      by_cases hempty : batch.isEmpty
      · rw [if_pos hempty] at herr ⊢
        simp at herr
      · rw [if_neg hempty] at herr ⊢
        rcases hdel : s.delete batch with e2 | u <;> rw [hdel] at herr <;>
          simp only at herr ⊢
        · injection herr with herr2
          refine ⟨calls, batch, rfl, ?_⟩
          rw [hdel, herr2]
        · simp at herr

/-- C3 witness: sweeping `s101` (101 blobs, none live) makes exactly two
delete calls. -/
theorem gc_sweep_correct_witness :
    (gc_sweep_task s101 (fun _ => false)).deleteCalls.length = 2 :=
  ((gc_sweep_correct s101 (fun _ => false) (List.range 101) [] rfl rfl).1
    (fun _ => rfl)).2.2.2.2 (by decide)

/-- C4. Mark error handling: when the tags iterator, the extra-roots
iterator and `store.get` are all error-free, the mark task completes;
in any successfully completing run, a traversed non-`Raw` root that is
missing, partial, unreadable or unparseable has its `CustomWarning`
event among the yielded events (the mark continued past it); and a
fatal error makes the `gc_mark` stream end in one terminal `Error`
event with no `add_live` call. -/
theorem gc_mark_error_handling (s : Store)
    (extra : List (Except Err HashAndFormat)) :
    ((∃ items, s.tags = .ok items ∧ ∀ i ∈ items, ∃ v, i = .ok v) →
      (∀ i ∈ extra, ∃ v, i = .ok v) →
      (∀ h e, s.get h ≠ .error e) →
      (gc_mark_task s extra).result = .ok ()) ∧
      (∀ pre r post w,
        (gc_mark_task s extra).result = .ok () →
        rootsOf s extra = pre ++ r :: post →
        r.format.is_raw = false →
        r.hash ∉ List.foldl (processRoot s) [] pre →
        failureWarning s r.hash = some w →
        w ∈ (gc_mark_task s extra).events ∧ w.kind = .customWarning) ∧
      (∀ e, (gc_mark_task s extra).result = .error e →
        gcMarkStream s extra = (gc_mark_task s extra).events ++ [.error e] ∧
          (gc_mark_task s extra).addLiveCalls = []) := by
  refine ⟨?_, ?_, fun e he => gc_mark_task_error he⟩
  · rintro ⟨items, htags, hitems⟩ hextra hget
    exact gc_mark_task_ok htags hitems hextra hget
  · intro pre r post w hok hsplit hraw hfresh hw
    refine ⟨?_, failureWarning_kind hw⟩
    unfold gc_mark_task at hok ⊢
    rcases h1 : collectRoots s extra with ⟨evs1, r1⟩
    rw [h1] at hok
    (try simp only at hok ⊢)
    rcases r1 with e | roots
    · simp at hok
    · (try simp only at hok ⊢)
      rcases h2 : markRoots s roots [] with ⟨evs2, r2⟩
      rw [h2] at hok
      (try simp only at hok ⊢)
      rcases r2 with e | live
      · simp at hok
      · have hroots : roots = rootsOf s extra := collectRoots_ok h1
        have hres2 : (markRoots s (pre ++ r :: post) []).2 = .ok live := by
          rw [← hsplit, ← hroots, h2]
        have hmem := markRoots_warning hres2 hraw hfresh hw
        rw [← hsplit, ← hroots, h2] at hmem
        simp only at hmem ⊢
        exact List.mem_append_left _ (List.mem_append_right _ hmem)

/-- C4 witness: in `sW` the missing root `5` yields a `notFound` warning
in a run that still completes, and in `sErr` the failing tags iterator
ends the stream with one terminal error and no `add_live` call. -/
theorem gc_mark_error_handling_witness :
    (gc_mark_task sW []).result = .ok () ∧
      GcMarkEvent.notFound 5 ∈ (gc_mark_task sW []).events ∧
      gcMarkStream sErr [] = [.traversingTags, .error "boom"] ∧
      (gc_mark_task sErr []).addLiveCalls = [] := by
  refine ⟨?_, ?_, ?_, ?_⟩
  · refine (gc_mark_error_handling sW []).1
      ⟨[.ok ("t", ⟨5, .hashSeq⟩)], rfl, ?_⟩ ?_ ?_
    · intro i hi
      rw [List.mem_singleton] at hi
      exact ⟨("t", ⟨5, .hashSeq⟩), hi⟩
    · intro i hi
      exact absurd hi (List.not_mem_nil i)
    · intro h e hc
      exact Except.noConfusion hc
  · exact ((gc_mark_error_handling sW []).2.1 [] ⟨5, .hashSeq⟩ []
      (.notFound 5) (by rfl) (by decide) (by rfl) (by simp) (by rfl)).1
  · exact ((gc_mark_error_handling sErr []).2.2 "boom" rfl).1.trans rfl
  · exact ((gc_mark_error_handling sErr []).2.2 "boom" rfl).2

/-- C5 (amended). `CombinedBatchWriter::write_batch` applies the batch
in order and stops at the first failing item: when it returns an error,
the items before the first failure HAVE been persisted (that partial
state is retained), the final state is exactly the state after that
prefix, and the failing item and everything after it are not applied. -/
theorem write_batch_stops_at_first_failure (bk : WriterBackend)
    (st : CombinedState) (size : Nat) (batch : List BaoContentItem)
    (st' : CombinedState) (e : Err)
    (h : write_batch bk st size batch = (st', .error e)) :
    ∃ pre item rest, batch = pre ++ item :: rest ∧
      write_batch bk st size pre = (st', .ok ()) ∧
      applyItem bk st' item = .error e := by
  induction batch generalizing st with
  | nil => simp [write_batch] at h
  | cons item rest ih =>
    unfold write_batch at h
    rcases happ : applyItem bk st item with e2 | st2 <;> rw [happ] at h
    · simp only [Prod.mk.injEq] at h
      obtain ⟨hst, he⟩ := h
      refine ⟨[], item, rest, rfl, ?_, ?_⟩
      · rw [← hst]
        rfl
      · injection he with he2
        rw [← hst, happ, he2]
    · obtain ⟨pre, it2, rest2, hsplit, hpre, hfail⟩ := ih st2 h
      refine ⟨item :: pre, it2, rest2,
        by rw [hsplit]; exact (List.cons_append _ _ _).symm, ?_, hfail⟩
      show write_batch bk st size (item :: pre) = (st', .ok ())
      unfold write_batch
      rw [happ]
      exact hpre

/-- C5 counterexample. Submitting `[parent, leaf]` to a combined writer
whose leaf write fails returns an error, yet the parent has already been
saved to the outboard: partial state from the failed batch IS retained,
so the claim as stated fails. -/
theorem write_batch_atomicity_cex :
    (write_batch bkCex stEmpty 4096 batchCex).2 = .error "disk full" ∧
      (write_batch bkCex stEmpty 4096 batchCex).1.outboard = [(0, (7, 8))] ∧
      (write_batch bkCex stEmpty 4096 batchCex).1 ≠ stEmpty := by
  refine ⟨rfl, rfl, by decide⟩

/-- C5 witness: the failing `batchCex` run is exactly the parent-only
prefix followed by the failing leaf. -/
theorem write_batch_stops_witness :
    ∃ pre item rest, batchCex = pre ++ item :: rest ∧
      write_batch bkCex stEmpty 4096 pre = (⟨[(0, (7, 8))], []⟩, .ok ()) ∧
      applyItem bkCex ⟨[(0, (7, 8))], []⟩ item = .error "disk full" :=
  write_batch_stops_at_first_failure bkCex stEmpty 4096 batchCex
    ⟨[(0, (7, 8))], []⟩ "disk full" rfl

/-- C6 (amended). `FallibleProgressBatchWriter::write_batch` invokes the
progress callback at most once per batch: exactly once — with the first
leaf's offset and data length, its error being returned — when the
inner write succeeds and the batch holds a leaf; not at all when the
inner write fails (that error is returned before the callback) or the
batch holds no leaf. -/
theorem progress_write_batch_correct (inner : Except Err Unit)
    (on_write : Nat → Nat → Except Err Unit) (size : Nat)
    (batch : List BaoContentItem) :
    (∀ e, inner = .error e →
      progress_write_batch inner on_write size batch = ⟨[], .error e⟩) ∧
      (∀ o len, inner = .ok () → firstLeaf batch = some (o, len) →
        progress_write_batch inner on_write size batch =
          ⟨[(o, len)], on_write o len⟩) ∧
      (inner = .ok () → firstLeaf batch = none →
        progress_write_batch inner on_write size batch = ⟨[], .ok ()⟩) := by
  refine ⟨?_, ?_, ?_⟩
  · rintro e rfl
    rfl
  · rintro o len rfl hfl
    simp only [progress_write_batch, hfl]
  · rintro rfl hfl
    simp only [progress_write_batch, hfl]

/-- C6 counterexample. A parent-only batch with a successful inner write
invokes the callback zero times, not exactly once: the claim as stated
fails. -/
theorem progress_once_cex :
    ¬ (progress_write_batch (.ok ()) (fun _ _ => .ok ()) 0
        [.parent 0 (0, 0)]).calls.length = 1 := by
  decide

/-- C6 witness: a one-leaf batch reports `(5, 3)` once and the
callback's error is returned. -/
theorem progress_write_batch_witness :
    progress_write_batch (.ok ()) cbW 0 [.leaf 5 [1, 2, 3]] =
      ⟨[(5, 3)], .error "cb"⟩ :=
  (progress_write_batch_correct (.ok ()) cbW 0 [.leaf 5 [1, 2, 3]]).2.1
    5 3 rfl rfl

/-- C7. `import_reader` is sugar over `import_stream`: for every reader,
format and progress sender it returns exactly what `import_stream`
returns on the wrapped stream (the spec-side description
`importReaderSpec`), adding no behaviour of its own. -/
theorem import_reader_refines {π : Type} :
    ∀ (s : ImportStore π) (data : ReaderModel) (format : BlobFormat)
      (progress : π),
      import_reader s data format progress =
        importReaderSpec s data format progress :=
  fun _ _ _ _ => rfl

/-- C8. Each distinct hash is considered for traversal at most once per
mark: a root whose hash is already in the live set contributes nothing
at its step (its children are not decoded into the live set), and in
particular when an earlier root has the same hash — under any format —
a later non-`Raw` root with that hash is skipped entirely. -/
theorem gc_mark_duplicate_root (s : Store) :
    (∀ (live : List Hash) (r : HashAndFormat), r.hash ∈ live →
      processRoot s live r = live) ∧
      (∀ (pre post : List HashAndFormat) (r2 : HashAndFormat),
        (∃ r1 ∈ pre, r1.hash = r2.hash) →
        markLive s (pre ++ r2 :: post) = markLive s (pre ++ post)) := by
  have hstep : ∀ (live : List Hash) (r : HashAndFormat), r.hash ∈ live →
      processRoot s live r = live := by
    intro live r hmem
    have hcond : (decide (r.hash ∈ live) || r.format.is_raw) = true := by
      rw [decide_eq_true hmem]
      rfl
    rw [processRoot_skip hcond]
    unfold insertLive
    rw [if_pos hmem]
  refine ⟨hstep, ?_⟩
  intro pre post r2 ⟨r1, hr1, hhash⟩
  have hmem : r2.hash ∈ List.foldl (processRoot s) [] pre := by
    rw [← hhash]
    exact hash_mem_foldl_processRoot hr1
  unfold markLive
  rw [List.foldl_append, List.foldl_append, List.foldl_cons, hstep _ r2 hmem]

/-- C8 witness: in `sDup` a `(1, HashSeq)` root following a `(1, Raw)`
root is skipped, its child `2` never entering the live set. -/
theorem gc_mark_duplicate_root_witness :
    markLive sDup ([⟨1, .raw⟩] ++ ⟨1, .hashSeq⟩ :: []) =
      markLive sDup ([⟨1, .raw⟩] ++ []) ∧
      (2 : Hash) ∉ markLive sDup [⟨1, .raw⟩, ⟨1, .hashSeq⟩] := by
  constructor
  · exact (gc_mark_duplicate_root sDup).2 [⟨1, .raw⟩] [] ⟨1, .hashSeq⟩
      ⟨⟨1, .raw⟩, by decide, rfl⟩
  · decide

/-- C9. `DerpMap::region_ids` returns the keys of the regions map in
ascending sorted order; given the `HashMap` invariant that keys are
distinct, the result holds every region id exactly once and its length
is the number of regions. -/
theorem region_ids_sorted_complete (m : DerpMap)
    (h : (m.regions.map Prod.fst).Nodup) :
    m.region_ids.Sorted (· ≤ ·) ∧
      m.region_ids.Perm (m.regions.map Prod.fst) ∧
      m.region_ids.Nodup ∧
      m.region_ids.length = m.regions.length := by
  refine ⟨?_, ?_, ?_, ?_⟩
  · exact List.sorted_insertionSort _ _
  · exact List.perm_insertionSort _ _
  · exact ((List.perm_insertionSort _ _).nodup_iff).mpr h
  · unfold DerpMap.region_ids
    rw [(List.perm_insertionSort (· ≤ ·) (m.regions.map Prod.fst)).length_eq,
      List.length_map]

/-- C9 witness: on the two-region map `dmEx` the keys come back sorted,
complete and duplicate-free. -/
theorem region_ids_sorted_witness :
    dmEx.region_ids.Sorted (· ≤ ·) ∧
      dmEx.region_ids.Perm (dmEx.regions.map Prod.fst) ∧
      dmEx.region_ids.Nodup ∧
      dmEx.region_ids.length = dmEx.regions.length :=
  region_ids_sorted_complete dmEx (by decide)

/-- C10. `UseIpv4::is_enabled` and `UseIpv6::is_enabled` return `false`
exactly on the `Disabled` variant, and `true` on the `None` and `Some`
variants. -/
theorem use_ip_is_enabled_iff :
    (∀ v : UseIpv4, v.is_enabled = false ↔ v = .disabled) ∧
      (∀ v : UseIpv6, v.is_enabled = false ↔ v = .disabled) ∧
      UseIpv4.none.is_enabled = true ∧ UseIpv6.none.is_enabled = true ∧
      (∀ a : Ipv4Addr, (UseIpv4.some a).is_enabled = true) ∧
      (∀ a : Ipv6Addr, (UseIpv6.some a).is_enabled = true) := by
  refine ⟨?_, ?_, rfl, rfl, fun a => rfl, fun a => rfl⟩
  · intro v
    cases v <;> simp [UseIpv4.is_enabled]
  · intro v
    cases v <;> simp [UseIpv6.is_enabled]

end Iroh
